import Mathlib

/-!
Verification of the shared-memory configuration core (`src/conf.rs`).

The embedding models `usize`/`u64` values as `Nat`, inserting `% 2^64`
exactly where the source performs machine arithmetic that can wrap
(the lock-range comparison, the `as u64` casts, the mapping-size sum).
Raw pointers are modelled as byte offsets from the mapping base, so
`map_base = 0` and `user_ptr = meta_size`.  Filesystem and OS-backend
effects (link-file creation, `create_mapping`, `open_mapping`, primitive
`init`) are external collaborators per the spec and are modelled as
succeeding; their error paths do not decide any claim below.

The lock/event kind catalogs live in `locks.rs`/`events.rs`, outside the
given sources, so kinds are modelled abstractly by a `Catalog` of
uid-validity predicates and body sizes; `enum_primitive`'s `from_u8` is
the partial inverse of `as u8`, so a kind is represented by its uid.
-/

/-- Modelled from the spec: `ADDR_ALIGN` is the build-time alignment
constant from the crate root (not among the given sources); the spec
fixes it as the pointer alignment, typically 8 (§4.1, §6.2). -/
def ADDR_ALIGN : Nat := 8

/-- Width of `usize`/`u64` on the (64-bit) target. -/
def W : Nat := 2 ^ 64

/-- `size_of::<MetaDataHeader>()`: four `u64` fields under `repr(C)` (32 bytes,
also documented in spec §6.1). -/
def MetaDataHeaderSize : Nat := 32

/-- `size_of::<LockHeader>()`: `{u8, u64, u64}` under `repr(C)` is 24 bytes
(1 + 7 padding + 8 + 8, spec §6.1). -/
def LockHeaderSize : Nat := 24

/-- `size_of::<EventHeader>()`: a single `u8` (spec §6.1). -/
def EventHeaderSize : Nat := 1

/-- `align_value` from `conf.rs`: round `val` up to the next multiple of
`ADDR_ALIGN`.  The source computes `(val + tmp) & !tmp` with
`tmp = ADDR_ALIGN - 1`; for the power of two 8, `val & tmp ≠ 0` is
`val % 8 ≠ 0` and `x & !tmp` is `x - x % 8`.  The source also returns the
pad count, which every caller discards, so it is omitted here. -/
def align_value (val : Nat) : Nat :=
  let tmp := ADDR_ALIGN - 1
  if val % ADDR_ALIGN ≠ 0 then (val + tmp) - (val + tmp) % ADDR_ALIGN else val

/-- Abstract catalog of lock/event kinds (`locks.rs`/`events.rs` are not in
the given sources).  `lockKnown u` holds when `LockType::from_u8 u` is
`Some`; `lockSize u` is `lockimpl_from_type(u).size_of()`; likewise for
events. -/
structure Catalog where
  lockKnown : Nat → Bool
  lockSize : Nat → Nat
  eventKnown : Nat → Bool
  eventSize : Nat → Nat

/-- `GenericLock` from `locks.rs` restricted to the fields `conf.rs` uses;
the raw `lock_ptr`/`data_ptr` fields are addresses and are omitted,
`interface` is represented by its only queried datum, `size_of()`. -/
structure GenericLock where
  uid : Nat
  offset : Nat
  length : Nat
  bodySize : Nat
deriving DecidableEq, Repr

/-- `GenericEvent` from `events.rs`, likewise restricted. -/
structure GenericEvent where
  uid : Nat
  bodySize : Nat
deriving DecidableEq, Repr

/-- `SharedMemError` variants surfaced by `conf.rs`; `std::io::Error`
payloads carry no information the claims mention and are dropped. -/
inductive SharedMemError where
  | MapSizeZero
  | RangeDoesNotFit (length map_size : Nat)
  | RangeOverlapsExisting (offset length index : Nat)
  | LinkExists
  | LinkDoesNotExist
  | LinkCreateFailed
  | LinkOpenFailed
  | LinkReadFailed
  | LinkWriteFailed
  | InvalidHeader
deriving DecidableEq, Repr

/-- The interval tree (`theban_interval_tree`, an external crate) is
modelled as an insertion-ordered list of `(start, end, value)` entries
with inclusive endpoints, as the spec describes it (§4.2). -/
abbrev IntervalTree := List (Nat × Nat × Nat)

/-- Inclusive ranges `[s1, e1]` and `[s2, e2]` intersect. -/
def rangesIntersect (s1 e1 s2 e2 : Nat) : Bool :=
  decide (s1 ≤ e2) && decide (s2 ≤ e1)

/-- `tree.range(s, e).next()`: the first stored entry whose range
intersects the query range. -/
def treeQuery (tree : IntervalTree) (s e : Nat) : Option (Nat × Nat × Nat) :=
  tree.find? (fun ent => rangesIntersect ent.1 ent.2.1 s e)

/-- `tree.insert(Range::new(s, e), v)`. -/
def treeInsert (tree : IntervalTree) (s e v : Nat) : IntervalTree :=
  tree ++ [(s, e, v)]

/-- `SharedMemConf` from `conf.rs`; paths are strings, the interval tree is
the list model above. -/
structure SharedMemConf where
  owner : Bool
  overwrite_existing_link : Bool
  link_path : Option String
  wanted_os_path : Option String
  size : Nat
  meta_size : Nat
  lock_range_tree : List (Nat × Nat × Nat)
  lock_data : List GenericLock
  event_data : List GenericEvent
deriving DecidableEq, Repr

/-- `Default for SharedMemConf`. -/
def SharedMemConf.default : SharedMemConf :=
  { owner := false
    overwrite_existing_link := false
    link_path := none
    wanted_os_path := none
    size := 0
    meta_size := MetaDataHeaderSize
    lock_range_tree := []
    lock_data := []
    event_data := [] }

/-- `SharedMemConf::valid_lock_range`.  The source compares
`offset + (length - 1) >= map_size` in `usize`; the sum wraps at `2^64`. -/
def valid_lock_range (map_size offset length : Nat) : Bool :=
  if length = 0 then decide (offset = 0)
  else decide ((offset + (length - 1)) % W < map_size)

/-- Tail of `add_lock_impl` shared by both branches: build the
`GenericLock` (its `interface` supplies `bodySize`), grow the `meta_size`
tally and push the lock. -/
def pushLock (C : Catalog) (conf : SharedMemConf) (lock_type offset length : Nat) :
    SharedMemConf :=
  { conf with
    meta_size := conf.meta_size + (LockHeaderSize + C.lockSize lock_type)
    lock_data := conf.lock_data ++ [⟨lock_type, offset, length, C.lockSize lock_type⟩] }

/-- `SharedMemConf::add_lock_impl`.  `lock_type` is the uid of an already
decoded `LockType` (a `u8`); `offset as u64` and `(length - 1) as u64`
are the `% W` casts and their sum is a wrapping `u64` addition. -/
def add_lock_impl (C : Catalog) (conf : SharedMemConf) (lock_type offset length : Nat) :
    Except SharedMemError SharedMemConf :=
  if valid_lock_range conf.size offset length = false then
    .error (.RangeDoesNotFit length conf.size)
  else if length ≠ 0 then
    match treeQuery conf.lock_range_tree (offset % W)
        ((offset % W + (length - 1) % W) % W) with
    | some existing_lock => .error (.RangeOverlapsExisting offset length existing_lock.2.2)
    | none =>
        .ok (pushLock C
          { conf with
            lock_range_tree :=
              treeInsert conf.lock_range_tree (offset % W)
                ((offset % W + (length - 1) % W) % W) conf.lock_data.length }
          lock_type offset length)
  else
    .ok (pushLock C conf lock_type offset length)

/-- `SharedMemConf::add_event_impl`: always succeeds, pushes the event and
grows the tally. -/
def add_event_impl (C : Catalog) (conf : SharedMemConf) (event_type : Nat) :
    Except SharedMemError SharedMemConf :=
  .ok { conf with
        meta_size := conf.meta_size + (EventHeaderSize + C.eventSize event_type)
        event_data := conf.event_data ++ [⟨event_type, C.eventSize event_type⟩] }

/-- One lock iteration of `calculate_metadata_size`:
`meta_size += size_of::<LockHeader>(); align_value(..); meta_size += body`. -/
def lockStep (cur : Nat) (l : GenericLock) : Nat :=
  align_value (cur + LockHeaderSize) + l.bodySize

/-- One event iteration of `calculate_metadata_size`. -/
def eventStep (cur : Nat) (e : GenericEvent) : Nat :=
  align_value (cur + EventHeaderSize) + e.bodySize

/-- `SharedMemConf::calculate_metadata_size`. -/
def calculate_metadata_size (conf : SharedMemConf) : Nat :=
  align_value (conf.event_data.foldl eventStep
    (conf.lock_data.foldl lockStep MetaDataHeaderSize))

/-- `SharedMemConf::set_size`. -/
def set_size (conf : SharedMemConf) (wanted_size : Nat) : SharedMemConf :=
  { conf with size := wanted_size }

/-- `SharedMemConf::set_link_path`. -/
def set_link_path (conf : SharedMemConf) (p : String) : SharedMemConf :=
  { conf with link_path := some p }

/-- `SharedMemConf::set_os_path`. -/
def set_os_path (conf : SharedMemConf) (unique_id : String) : SharedMemConf :=
  { conf with wanted_os_path := some unique_id }

/-- `SharedMemConf::overwrite_link`. -/
def overwrite_link (conf : SharedMemConf) : SharedMemConf :=
  { conf with overwrite_existing_link := true }

/-- `SharedMemConf::add_lock` (public wrapper over `add_lock_impl`). -/
def add_lock (C : Catalog) (conf : SharedMemConf) (lock_type offset length : Nat) :
    Except SharedMemError SharedMemConf :=
  add_lock_impl C conf lock_type offset length

/-- `SharedMemConf::add_event` (public wrapper over `add_event_impl`). -/
def add_event (C : Catalog) (conf : SharedMemConf) (event_type : Nat) :
    Except SharedMemError SharedMemConf :=
  add_event_impl C conf event_type

/-- `MetaDataHeader` as serialized into the mapping (`u64` fields). -/
structure MetaDataHeaderV where
  meta_size : Nat
  user_size : Nat
  num_locks : Nat
  num_events : Nat
deriving DecidableEq, Repr

/-- `LockHeader` as serialized into the mapping. -/
structure LockHeaderV where
  uid : Nat
  offset : Nat
  length : Nat
deriving DecidableEq, Repr

/-- `EventHeader` as serialized into the mapping. -/
structure EventHeaderV where
  uid : Nat
deriving DecidableEq, Repr

/-- The shared mapping at header granularity: total byte size plus the
header, lock-descriptor and event-descriptor slots.  Slots beyond the
serialized lists model uninitialized memory and read as zeroes. -/
structure Mapping where
  map_size : Nat
  header : MetaDataHeaderV
  locks : List LockHeaderV
  events : List EventHeaderV
deriving DecidableEq, Repr

/-- Read the `i`-th `LockHeader` slot of the mapping. -/
def readLockHeader (m : Mapping) (i : Nat) : LockHeaderV :=
  m.locks.getD i ⟨0, 0, 0⟩

/-- Read the `i`-th `EventHeader` slot of the mapping. -/
def readEventHeader (m : Mapping) (i : Nat) : EventHeaderV :=
  m.events.getD i ⟨0⟩

/-- Digits `0..15` rendered as `format!("{:X}")` renders them. -/
def hexDigit (n : Nat) : Char :=
  if n < 10 then Char.ofNat ('0'.toNat + n) else Char.ofNat ('A'.toNat + (n - 10))

/-- Most-significant-first uppercase hex digits of `n`, no leading zeroes,
`"0"` for zero, exactly as `format!("{:X}", n)` prints a `u64`.  The
structural `fuel` (64 is more than any `u64` needs) keeps the definition
kernel-reducible. -/
def toHexCoreAux : Nat → Nat → List Char → List Char
  | 0, n, acc => hexDigit (n % 16) :: acc
  | fuel + 1, n, acc =>
      if n < 16 then hexDigit n :: acc
      else toHexCoreAux fuel (n / 16) (hexDigit (n % 16) :: acc)

/-- `format!("{:X}", n)` for a 64-bit value `n`. -/
def toHexUpper (n : Nat) : List Char :=
  toHexCoreAux 64 n []

/-- The OS object name `create` synthesizes when no `wanted_os_path` is
set: `format!("/shmem_rs_{:X}", rng.gen::<u64>())`. -/
def synthesized_name (v : Nat) : String :=
  ⟨"/shmem_rs_".data ++ toHexUpper (v % W)⟩

/-- Result of a successful `create`: the (updated) configuration, the
serialized mapping contents, and the chosen OS object id.  The raw
`user_ptr` and the open link-file handle are omitted (addresses /
filesystem state). -/
structure SharedMemModel where
  conf : SharedMemConf
  mapping : Mapping
  os_id : String
deriving DecidableEq, Repr

/-- `SharedMemConf::create`, with the external effects (link-file
creation, `rand`, `os_impl::create_mapping`, primitive `init`) modelled
as succeeding; `rnd` stands for the value drawn from `thread_rng`.
Serialization stores each field through its `as u64` cast; the mapping
size passed to the backend is the `usize` sum `meta_size + size`. -/
def create (_C : Catalog) (conf : SharedMemConf) (rnd : Nat) :
    Except SharedMemError SharedMemModel :=
  if conf.size = 0 then .error .MapSizeZero
  else
    let conf := if conf.link_path.isSome then { conf with owner := true } else conf
    let unique_id :=
      match conf.wanted_os_path with
      | some s => s
      | none => synthesized_name rnd
    let meta_size := calculate_metadata_size conf
    let mapping : Mapping :=
      { map_size := (meta_size + conf.size) % W
        header := ⟨meta_size % W, conf.size % W,
                   conf.lock_data.length % W, conf.event_data.length % W⟩
        locks := conf.lock_data.map (fun l => ⟨l.uid, l.offset % W, l.length % W⟩)
        events := conf.event_data.map (fun e => ⟨e.uid⟩) }
    .ok ⟨{ conf with meta_size := meta_size }, mapping, unique_id⟩

/-- The lock-descriptor walk of `SharedMemConf::open`: for each header
advance past `LockHeader`, align, bounds-check, decode the uid, re-add
the lock through `add_lock_impl`, advance past the body and bounds-check.
`user_ptr` and the cursor are offsets from the mapping base; primitive
`init` is modelled as succeeding. -/
def openLocks (C : Catalog) (user_ptr : Nat) :
    List LockHeaderV → Nat → SharedMemConf → Except SharedMemError (Nat × SharedMemConf)
  | [], cur, conf => .ok (cur, conf)
  | h :: rest, cur, conf =>
      let cur := align_value (cur + LockHeaderSize)
      if user_ptr < cur then .error .InvalidHeader
      else if C.lockKnown h.uid = false then .error .InvalidHeader
      else
        match add_lock_impl C conf h.uid h.offset h.length with
        | .error e => .error e
        | .ok conf =>
            let cur := cur + C.lockSize h.uid
            if user_ptr < cur then .error .InvalidHeader
            else openLocks C user_ptr rest cur conf

/-- The event-descriptor walk of `SharedMemConf::open`, including the
early `continue` for body-less events (which leaves the cursor at the
aligned position and skips the second bounds check). -/
def openEvents (C : Catalog) (user_ptr : Nat) :
    List EventHeaderV → Nat → SharedMemConf → Except SharedMemError (Nat × SharedMemConf)
  | [], cur, conf => .ok (cur, conf)
  | h :: rest, cur, conf =>
      let cur := align_value (cur + EventHeaderSize)
      if user_ptr < cur then .error .InvalidHeader
      else if C.eventKnown h.uid = false then .error .InvalidHeader
      else
        match add_event_impl C conf h.uid with
        | .error e => .error e
        | .ok conf =>
            if C.eventSize h.uid = 0 then openEvents C user_ptr rest cur conf
            else
              let cur := cur + C.eventSize h.uid
              if user_ptr < cur then .error .InvalidHeader
              else openEvents C user_ptr rest cur conf

/-- `SharedMemConf::open` (`open` is a Lean keyword), with name
resolution through `wanted_os_path` or the link file modelled as having
yielded the mapping `m`.  Offsets stand for pointers with `map_base = 0`,
so `user_ptr = header.meta_size` and the final `cur_ptr - map_base` is
`cur` itself; `as u64` casts are `% W`. -/
def openMapping (C : Catalog) (conf0 : SharedMemConf) (m : Mapping) :
    Except SharedMemError SharedMemConf :=
  let conf := { conf0 with lock_range_tree := ([] : IntervalTree),
                           lock_data := ([] : List GenericLock),
                           event_data := ([] : List GenericEvent) }
  if MetaDataHeaderSize > m.map_size then .error .InvalidHeader
  else
    let cur := MetaDataHeaderSize
    let conf := { conf with size := m.header.user_size }
    if m.map_size % W < (m.header.meta_size + m.header.user_size) % W then
      .error .InvalidHeader
    else
      let user_ptr := m.header.meta_size
      match openLocks C user_ptr ((List.range m.header.num_locks).map (readLockHeader m))
          cur conf with
      | .error e => .error e
      | .ok (cur, conf) =>
          match openEvents C user_ptr
              ((List.range m.header.num_events).map (readEventHeader m)) cur conf with
          | .error e => .error e
          | .ok (cur, conf) =>
              let cur := align_value cur
              let conf := { conf with meta_size := cur }
              if cur ≠ user_ptr ∨ conf.meta_size % W ≠ m.header.meta_size then
                .error .InvalidHeader
              else .ok conf

/-- A small concrete catalog used for witnesses and counterexamples:
two lock kinds of body size 8, one event kind of body size 0 (events may
be body-less, spec §4.7). -/
def testCatalog : Catalog :=
  { lockKnown := fun u => u < 2
    lockSize := fun _ => 8
    eventKnown := fun u => u < 1
    eventSize := fun _ => 0 }

/-- Closed form of `align_value`: round up to the next multiple of 8. -/
theorem align_value_eq (v : Nat) : align_value v = (v + 7) / 8 * 8 := by
  simp only [align_value, ADDR_ALIGN]
  split <;> omega

theorem align_value_ge (v : Nat) : v ≤ align_value v := by
  rw [align_value_eq]; omega

theorem align_value_lt (v : Nat) : align_value v < v + 8 := by
  rw [align_value_eq]; omega

theorem align_value_mod (v : Nat) : align_value v % 8 = 0 := by
  rw [align_value_eq]; omega

theorem align_value_of_aligned (v : Nat) (h : v % 8 = 0) : align_value v = v := by
  rw [align_value_eq]; omega

theorem align_value_mono {a b : Nat} (h : a ≤ b) : align_value a ≤ align_value b := by
  rw [align_value_eq, align_value_eq]
  have := Nat.div_le_div_right (c := 8) (Nat.add_le_add_right h 7)
  omega

theorem lockStep_ge (cur : Nat) (l : GenericLock) :
    cur + LockHeaderSize ≤ lockStep cur l := by
  have := align_value_ge (cur + LockHeaderSize)
  simp only [lockStep]; omega

theorem eventStep_ge (cur : Nat) (e : GenericEvent) :
    cur + EventHeaderSize ≤ eventStep cur e := by
  have := align_value_ge (cur + EventHeaderSize)
  simp only [eventStep]; omega

theorem le_foldl_lockStep (ls : List GenericLock) (cur : Nat) :
    cur ≤ ls.foldl lockStep cur := by
  induction ls generalizing cur with
  | nil => simp
  | cons l rest ih =>
      have h1 := lockStep_ge cur l
      have h2 := ih (lockStep cur l)
      simp only [List.foldl_cons]
      omega

theorem le_foldl_eventStep (es : List GenericEvent) (cur : Nat) :
    cur ≤ es.foldl eventStep cur := by
  induction es generalizing cur with
  | nil => simp
  | cons e rest ih =>
      have h1 := eventStep_ge cur e
      have h2 := ih (eventStep cur e)
      simp only [List.foldl_cons]
      omega

theorem foldl_lockStep_lower (ls : List GenericLock) (cur : Nat) :
    cur + LockHeaderSize * ls.length ≤ ls.foldl lockStep cur := by
  induction ls generalizing cur with
  | nil => simp
  | cons l rest ih =>
      have h1 := lockStep_ge cur l
      have h2 := ih (lockStep cur l)
      simp only [List.foldl_cons, List.length_cons]
      have : LockHeaderSize * (rest.length + 1) = LockHeaderSize * rest.length + LockHeaderSize := by ring
      omega

theorem foldl_eventStep_lower (es : List GenericEvent) (cur : Nat) :
    cur + EventHeaderSize * es.length ≤ es.foldl eventStep cur := by
  induction es generalizing cur with
  | nil => simp
  | cons e rest ih =>
      have h1 := eventStep_ge cur e
      have h2 := ih (eventStep cur e)
      simp only [List.foldl_cons, List.length_cons]
      have : EventHeaderSize * (rest.length + 1) = EventHeaderSize * rest.length + EventHeaderSize := by ring
      omega

theorem calculate_ge_lockFold (conf : SharedMemConf) :
    conf.lock_data.foldl lockStep MetaDataHeaderSize ≤ calculate_metadata_size conf := by
  unfold calculate_metadata_size
  exact le_trans (le_foldl_eventStep _ _) (align_value_ge _)

theorem calculate_ge_eventFold (conf : SharedMemConf) :
    conf.event_data.foldl eventStep (conf.lock_data.foldl lockStep MetaDataHeaderSize) ≤
      calculate_metadata_size conf := by
  unfold calculate_metadata_size
  exact align_value_ge _

theorem calculate_ge_header (conf : SharedMemConf) :
    MetaDataHeaderSize ≤ calculate_metadata_size conf := by
  exact le_trans (le_foldl_lockStep _ _) (calculate_ge_lockFold conf)

theorem W_eq : W = 18446744073709551616 := by norm_num [W]

/-- Acceptance condition of `valid_lock_range` when the compared sum does
not wrap: a zero-length lock is accepted only at offset 0, a non-zero
lock iff it fits. -/
theorem valid_lock_range_iff (map_size offset length : Nat) (hW : offset + length ≤ W) :
    valid_lock_range map_size offset length = true ↔
      ((length = 0 ∧ offset = 0) ∨ (0 < length ∧ offset + length ≤ map_size)) := by
  rw [W_eq] at hW
  unfold valid_lock_range
  split
  · simp only [decide_eq_true_eq]
    omega
  · rw [decide_eq_true_eq, Nat.mod_eq_of_lt (by rw [W_eq]; omega)]
    omega

/-- A rejected range surfaces as `RangeDoesNotFit(length, self.size)`
before any other work of `add_lock_impl` happens. -/
theorem add_lock_impl_of_invalid (C : Catalog) (conf : SharedMemConf)
    (lock_type offset length : Nat)
    (h : valid_lock_range conf.size offset length = false) :
    add_lock_impl C conf lock_type offset length =
      .error (.RangeDoesNotFit length conf.size) := by
  unfold add_lock_impl
  rw [h]
  rfl

/-- A successful `add_lock_impl` appends exactly the decoded lock and
touches nothing besides `meta_size`, `lock_data` and the range tree. -/
theorem add_lock_impl_ok_fields {C : Catalog} {conf conf' : SharedMemConf}
    {lock_type offset length : Nat}
    (h : add_lock_impl C conf lock_type offset length = .ok conf') :
    conf'.owner = conf.owner ∧ conf'.size = conf.size ∧
    conf'.event_data = conf.event_data ∧
    conf'.link_path = conf.link_path ∧
    conf'.wanted_os_path = conf.wanted_os_path ∧
    conf'.overwrite_existing_link = conf.overwrite_existing_link ∧
    conf'.lock_data = conf.lock_data ++ [⟨lock_type, offset, length, C.lockSize lock_type⟩] ∧
    conf'.meta_size = conf.meta_size + (LockHeaderSize + C.lockSize lock_type) := by
  unfold add_lock_impl at h
  split at h
  · exact absurd h (by simp)
  · split at h
    · split at h
      · exact absurd h (by simp)
      · injection h with h
        subst h
        simp [pushLock, treeInsert]
    · injection h with h
      subst h
      simp [pushLock]

/-- A failing `add_lock_impl` fails with one of the two range errors,
carrying the offending length/offset and the current `self.size`. -/
theorem add_lock_impl_error_shape {C : Catalog} {conf : SharedMemConf}
    {lock_type offset length : Nat} {e : SharedMemError}
    (h : add_lock_impl C conf lock_type offset length = .error e) :
    e = .RangeDoesNotFit length conf.size ∨
      ∃ i, e = .RangeOverlapsExisting offset length i := by
  unfold add_lock_impl at h
  split at h
  · left
    injection h with h
    exact h.symm
  · split at h
    · split at h
      · right
        injection h with h
        exact ⟨_, h.symm⟩
      · exact absurd h (by simp)
    · exact absurd h (by simp)

/-- On success `add_lock_impl` touches the range tree only by appending
the new entry, and not at all for a zero-length lock. -/
theorem add_lock_impl_ok_tree {C : Catalog} {conf conf' : SharedMemConf}
    {lock_type offset length : Nat}
    (h : add_lock_impl C conf lock_type offset length = .ok conf') :
    (length = 0 → conf'.lock_range_tree = conf.lock_range_tree) ∧
    (length ≠ 0 → conf'.lock_range_tree =
      treeInsert conf.lock_range_tree (offset % W)
        ((offset % W + (length - 1) % W) % W) conf.lock_data.length) := by
  unfold add_lock_impl at h
  split at h
  · exact absurd h (by simp)
  · split at h
    case isTrue hlen =>
      split at h
      · exact absurd h (by simp)
      · injection h with h
        subst h
        exact ⟨fun h0 => absurd h0 hlen, fun _ => by simp [pushLock]⟩
    case isFalse hlen =>
      injection h with h
      subst h
      exact ⟨fun _ => by simp [pushLock], fun hne => absurd (by omega : length = 0) hne⟩

/-- C3 (counterexample): the claimed acceptance condition
`(length == 0 ∧ offset == 0) ∨ offset + length ≤ map_size` holds at
`map_size = 5, offset = 1, length = 0` (second disjunct), yet the
validator rejects: a zero-length lock is only accepted at offset 0. -/
theorem valid_lock_range_zero_length_cex :
    valid_lock_range 5 1 0 = false ∧ ((0 = 0 ∧ 1 = 0) ∨ 1 + 0 ≤ 5) := by
  constructor
  · rfl
  · right
    omega

/-- C3 (amended): the validator accepts iff `length == 0 ∧ offset == 0`,
or `length > 0 ∧ offset + length ≤ map_size`, provided `offset + length`
does not exceed `2^64` (the source compares `offset + (length - 1)` in
`usize`, which wraps past that bound); whenever the validator rejects,
`add_lock_impl` returns `RangeDoesNotFit(length, self.size)` without
touching the builder. -/
theorem valid_lock_range_correct :
    (∀ map_size offset length : Nat, offset + length ≤ W →
      (valid_lock_range map_size offset length = true ↔
        ((length = 0 ∧ offset = 0) ∨ (0 < length ∧ offset + length ≤ map_size)))) ∧
    (∀ (C : Catalog) (conf : SharedMemConf) (lock_type offset length : Nat),
      valid_lock_range conf.size offset length = false →
      add_lock_impl C conf lock_type offset length =
        .error (.RangeDoesNotFit length conf.size)) :=
  ⟨valid_lock_range_iff, add_lock_impl_of_invalid⟩

/-- C3 (witness): scenario S4 — `user_size = 100`,
`add_lock(Mutex, 80, 40)` is rejected as `RangeDoesNotFit(40, 100)`. -/
theorem valid_lock_range_correct_witness :
    (valid_lock_range 100 80 40 = true ↔
      ((40 = 0 ∧ 80 = 0) ∨ (0 < 40 ∧ 80 + 40 ≤ 100))) ∧
    add_lock_impl testCatalog (set_size SharedMemConf.default 100) 0 80 40 =
      .error (.RangeDoesNotFit 40 100) :=
  ⟨valid_lock_range_correct.1 100 80 40 (by decide),
   valid_lock_range_correct.2 testCatalog (set_size SharedMemConf.default 100) 0 80 40
     (by decide)⟩

/-- C10: `add_event_impl` never fails: it returns `Ok`, appends exactly
one event descriptor (the kind's uid plus its body size), increments
`meta_size` by `size_of(EventHeader) + body_size`, and leaves
`user_size`, the lock sequence, the range index and every other field
unchanged; the public `add_event` is that same operation. -/
theorem add_event_impl_spec (C : Catalog) (conf : SharedMemConf) (event_type : Nat) :
    add_event C conf event_type = add_event_impl C conf event_type ∧
    ∃ conf', add_event_impl C conf event_type = .ok conf' ∧
      conf'.event_data = conf.event_data ++ [⟨event_type, C.eventSize event_type⟩] ∧
      conf'.meta_size = conf.meta_size + EventHeaderSize + C.eventSize event_type ∧
      conf'.size = conf.size ∧
      conf'.lock_data = conf.lock_data ∧
      conf'.lock_range_tree = conf.lock_range_tree ∧
      conf'.owner = conf.owner ∧
      conf'.link_path = conf.link_path ∧
      conf'.wanted_os_path = conf.wanted_os_path ∧
      conf'.overwrite_existing_link = conf.overwrite_existing_link := by
  refine ⟨rfl, _, rfl, rfl, ?_, rfl, rfl, rfl, rfl, rfl, rfl, rfl⟩
  simp [Nat.add_assoc]

/-- The spec's `align_up` (§4.1): round `pos` up to the next multiple of
`ADDR_ALIGN`, written from the spec's words for comparison with the
source's `align_value`. -/
def align_up (pos : Nat) : Nat :=
  (pos + (ADDR_ALIGN - 1)) / ADDR_ALIGN * ADDR_ALIGN

/-- The metadata size as claim C2 words it: `size_of(MetaDataHeader)`,
then per lock `size_of(LockHeader)`, padding to `ADDR_ALIGN`, the lock
kind's body size, then likewise per event, then final padding.  Written
from the spec (§4.3) over the body-size sequences, for comparison with
`calculate_metadata_size`. -/
def spec_metadata_size (lockBodies eventBodies : List Nat) : Nat :=
  align_up (eventBodies.foldl (fun pos b => align_up (pos + EventHeaderSize) + b)
    (lockBodies.foldl (fun pos b => align_up (pos + LockHeaderSize) + b) MetaDataHeaderSize))

theorem align_up_eq_align_value (v : Nat) : align_up v = align_value v := by
  rw [align_value_eq]
  rfl

/-- C2: `calculate_metadata_size` computes exactly the spec's layout sum,
as a function of the lock and event body-size sequences alone (so it is
pure: two configurations with the same kind sequences get the same
value), and its result is always a multiple of `ADDR_ALIGN`. -/
theorem calculate_metadata_size_spec (conf : SharedMemConf) :
    calculate_metadata_size conf =
      spec_metadata_size (conf.lock_data.map GenericLock.bodySize)
        (conf.event_data.map GenericEvent.bodySize) ∧
    calculate_metadata_size conf % ADDR_ALIGN = 0 := by
  constructor
  · unfold calculate_metadata_size spec_metadata_size
    rw [List.foldl_map, List.foldl_map]
    simp only [align_up_eq_align_value]
    rfl
  · unfold calculate_metadata_size
    simp only [ADDR_ALIGN]
    exact align_value_mod _

/-- The fit invariant of the spec's data model (§3, invariant 1): every
recorded lock either has zero length at offset 0 or lies inside the
user region. -/
def LocksFit (conf : SharedMemConf) : Prop :=
  ∀ l ∈ conf.lock_data, (l.length = 0 ∧ l.offset = 0) ∨ l.offset + l.length ≤ conf.size

instance decidableLocksFit (conf : SharedMemConf) : Decidable (LocksFit conf) :=
  inferInstanceAs (Decidable (∀ l ∈ conf.lock_data,
    (l.length = 0 ∧ l.offset = 0) ∨ l.offset + l.length ≤ conf.size))

deriving instance DecidableEq for Except

/-- Extract the configuration from a successful builder step (used to
write concrete builder states in witnesses and counterexamples). -/
def getOk (r : Except SharedMemError SharedMemConf) : SharedMemConf :=
  match r with
  | .ok c => c
  | .error _ => SharedMemConf.default

/-- The builder state of C6's counterexample: grow to `user_size = 100`,
add a lock over `[0, 100)`, then shrink to `user_size = 10`. -/
def shrunkConf : SharedMemConf :=
  set_size (getOk (add_lock_impl testCatalog (set_size SharedMemConf.default 100) 0 0 100)) 10

/-- C6 (counterexample): the fit invariant holds after the accepted
`add_lock`, but the subsequent `set_size` (a builder operation) breaks
it: the recorded lock `[0, 100)` no longer fits in `user_size = 10`. -/
theorem set_size_breaks_fit_cex :
    (add_lock_impl testCatalog (set_size SharedMemConf.default 100) 0 0 100).isOk = true ∧
    LocksFit (getOk (add_lock_impl testCatalog (set_size SharedMemConf.default 100) 0 0 100)) ∧
    ¬ LocksFit shrunkConf := by
  refine ⟨by decide, by decide, by decide⟩

/-- C6 (amended): the fit invariant holds for the default builder and is
preserved by `add_lock` (for arguments whose sum does not overflow
`usize`), `add_event`, `set_link_path`, `set_os_path` and
`overwrite_link`; it is not preserved by `set_size`, which may shrink
`user_size` below an existing lock (see the counterexample). -/
theorem locks_fit_invariant :
    LocksFit SharedMemConf.default ∧
    (∀ (C : Catalog) (conf : SharedMemConf) (lock_type offset length : Nat)
      (conf' : SharedMemConf), LocksFit conf → offset + length ≤ W →
      add_lock_impl C conf lock_type offset length = .ok conf' → LocksFit conf') ∧
    (∀ (C : Catalog) (conf : SharedMemConf) (event_type : Nat) (conf' : SharedMemConf),
      LocksFit conf → add_event_impl C conf event_type = .ok conf' → LocksFit conf') ∧
    (∀ (conf : SharedMemConf) (p : String), LocksFit conf → LocksFit (set_link_path conf p)) ∧
    (∀ (conf : SharedMemConf) (s : String), LocksFit conf → LocksFit (set_os_path conf s)) ∧
    (∀ conf : SharedMemConf, LocksFit conf → LocksFit (overwrite_link conf)) := by
  refine ⟨?_, ?_, ?_, ?_, ?_, ?_⟩
  · intro l hl
    simp [SharedMemConf.default] at hl
  · intro C conf lock_type offset length conf' hfit hW hok
    have hvalid : valid_lock_range conf.size offset length = true := by
      by_contra hv
      rw [add_lock_impl_of_invalid C conf lock_type offset length
        (Bool.eq_false_iff.mpr hv)] at hok
      exact absurd hok (by simp)
    obtain ⟨-, hsize, -, -, -, -, hlocks, -⟩ := add_lock_impl_ok_fields hok
    intro l hl
    rw [hlocks] at hl
    rw [hsize]
    rcases List.mem_append.mp hl with hold | hnew
    · exact hfit l hold
    · have hl' : l = ⟨lock_type, offset, length, C.lockSize lock_type⟩ := by
        simpa using hnew
      subst hl'
      have := (valid_lock_range_iff conf.size offset length hW).mp hvalid
      simp only []
      omega
  · intro C conf event_type conf' hfit hok
    unfold add_event_impl at hok
    injection hok with hok
    subst hok
    exact hfit
  · intro conf p hfit l hl
    exact hfit l hl
  · intro conf s hfit l hl
    exact hfit l hl
  · intro conf hfit l hl
    exact hfit l hl

/-- C6 (witness): the preservation clause applied to scenario values —
adding a fitting lock to the default builder grown to 256 bytes keeps
the fit invariant. -/
theorem locks_fit_invariant_witness :
    LocksFit (getOk (add_lock_impl testCatalog (set_size SharedMemConf.default 256) 0 0 128)) :=
  locks_fit_invariant.2.1 testCatalog (set_size SharedMemConf.default 256) 0 0 128
    (getOk (add_lock_impl testCatalog (set_size SharedMemConf.default 256) 0 0 128))
    (fun l hl => by simp [set_size, SharedMemConf.default] at hl)
    (by decide) (by decide)

/-- Shape of every successful `create`: the link branch (if any) marked
the owner, `meta_size` was recomputed by the layout calculator, and the
mapping serializes the header, the lock headers and the event headers in
order through their `as u64` casts. -/
theorem create_eq (C : Catalog) (conf : SharedMemConf) (rnd : Nat) (h : ¬ conf.size = 0) :
    create C conf rnd = .ok
      ⟨{ (if conf.link_path.isSome then { conf with owner := true } else conf) with
           meta_size := calculate_metadata_size conf },
       { map_size := (calculate_metadata_size conf + conf.size) % W
         header := ⟨calculate_metadata_size conf % W, conf.size % W,
                    conf.lock_data.length % W, conf.event_data.length % W⟩
         locks := conf.lock_data.map (fun l => ⟨l.uid, l.offset % W, l.length % W⟩)
         events := conf.event_data.map (fun e => ⟨e.uid⟩) },
       match conf.wanted_os_path with
       | some s => s
       | none => synthesized_name rnd⟩ := by
  unfold create
  rw [if_neg h]
  by_cases hl : conf.link_path.isSome
  · simp [hl]
    exact ⟨rfl, rfl, rfl⟩
  · simp [hl]

/-- The running `meta_size` tally as the builder maintains it: the header
size plus, per descriptor, its header size plus its body size — with no
alignment padding. -/
def tallyOf (conf : SharedMemConf) : Nat :=
  MetaDataHeaderSize + ((conf.lock_data.map (fun l => LockHeaderSize + l.bodySize)).sum
    + (conf.event_data.map (fun e => EventHeaderSize + e.bodySize)).sum)

/-- Claim C7's invariant relating the stored tally to the builder state. -/
def TallyInv (conf : SharedMemConf) : Prop :=
  conf.meta_size = tallyOf conf

instance decidableTallyInv (conf : SharedMemConf) : Decidable (TallyInv conf) :=
  inferInstanceAs (Decidable (conf.meta_size = tallyOf conf))

/-- C7 (counterexample): after a single `add_event` on the default
builder (body size 0), the stored `meta_size` is `32 + 1 + 0 = 33`, but
`calculate_metadata_size` yields 40: the running tally skips the
alignment padding the calculator inserts after the 1-byte event header. -/
theorem meta_size_tally_cex :
    add_event_impl testCatalog SharedMemConf.default 0 =
      .ok (getOk (add_event_impl testCatalog SharedMemConf.default 0)) ∧
    (getOk (add_event_impl testCatalog SharedMemConf.default 0)).meta_size = 33 ∧
    calculate_metadata_size (getOk (add_event_impl testCatalog SharedMemConf.default 0)) = 40 := by
  decide

theorem foldl_lockStep_aligned :
    ∀ (ls : List GenericLock) (cur : Nat), cur % 8 = 0 →
      (∀ l ∈ ls, l.bodySize % 8 = 0) →
      ls.foldl lockStep cur = cur + (ls.map (fun l => LockHeaderSize + l.bodySize)).sum ∧
      ls.foldl lockStep cur % 8 = 0 := by
  intro ls
  induction ls with
  | nil => simp
  | cons l rest ih =>
      intro cur hcur hbodies
      have hhd : l.bodySize % 8 = 0 := hbodies l (by simp)
      have halign : align_value (cur + LockHeaderSize) = cur + LockHeaderSize :=
        align_value_of_aligned _ (by simp only [LockHeaderSize]; omega)
      have hstep : lockStep cur l = cur + LockHeaderSize + l.bodySize := by
        simp only [lockStep, halign]
      have hstep8 : lockStep cur l % 8 = 0 := by
        rw [hstep]; simp only [LockHeaderSize]; omega
      obtain ⟨ih1, ih2⟩ := ih (lockStep cur l) hstep8 (fun x hx => hbodies x (by simp [hx]))
      refine ⟨?_, by simpa using ih2⟩
      simp only [List.foldl_cons, List.map_cons, List.sum_cons]
      rw [ih1, hstep]
      omega

/-- C7 (amended): the stored `meta_size` is the padding-free running
tally (header size plus, per descriptor, header size plus body size) —
an invariant preserved by every builder operation — rather than the
`calculate_metadata_size` value the claim states; the two agree only in
special cases, e.g. with no events and all lock bodies 8-aligned.  The
authoritative value is recomputed by `calculate_metadata_size` at
`create` time and stored in the resulting configuration. -/
theorem meta_size_tally :
    TallyInv SharedMemConf.default ∧
    (∀ (C : Catalog) (conf : SharedMemConf) (lock_type offset length : Nat)
      (conf' : SharedMemConf), TallyInv conf →
      add_lock_impl C conf lock_type offset length = .ok conf' → TallyInv conf') ∧
    (∀ (C : Catalog) (conf : SharedMemConf) (event_type : Nat) (conf' : SharedMemConf),
      TallyInv conf → add_event_impl C conf event_type = .ok conf' → TallyInv conf') ∧
    (∀ (conf : SharedMemConf) (n : Nat), TallyInv conf → TallyInv (set_size conf n)) ∧
    (∀ (conf : SharedMemConf) (p : String), TallyInv conf → TallyInv (set_link_path conf p)) ∧
    (∀ (conf : SharedMemConf) (s : String), TallyInv conf → TallyInv (set_os_path conf s)) ∧
    (∀ conf : SharedMemConf, TallyInv conf → TallyInv (overwrite_link conf)) ∧
    (∀ (C : Catalog) (conf : SharedMemConf) (rnd : Nat) (sm : SharedMemModel),
      create C conf rnd = .ok sm → sm.conf.meta_size = calculate_metadata_size conf) ∧
    (∀ conf : SharedMemConf, conf.event_data = [] →
      (∀ l ∈ conf.lock_data, l.bodySize % ADDR_ALIGN = 0) →
      TallyInv conf → conf.meta_size = calculate_metadata_size conf) := by
  refine ⟨by decide, ?_, ?_, ?_, ?_, ?_, ?_, ?_, ?_⟩
  · intro C conf lock_type offset length conf' htally hok
    obtain ⟨-, -, hevents, -, -, -, hlocks, hmeta⟩ := add_lock_impl_ok_fields hok
    unfold TallyInv tallyOf at htally ⊢
    rw [hmeta, hlocks, hevents, htally]
    simp only [List.map_append, List.sum_append, List.map_cons, List.sum_cons,
      List.map_nil, List.sum_nil]
    omega
  · intro C conf event_type conf' htally hok
    unfold add_event_impl at hok
    injection hok with hok
    subst hok
    unfold TallyInv tallyOf at htally ⊢
    simp only [List.map_append, List.sum_append, List.map_cons, List.sum_cons,
      List.map_nil, List.sum_nil]
    rw [htally]
    omega
  · intro conf n h
    exact h
  · intro conf p h
    exact h
  · intro conf s h
    exact h
  · intro conf h
    exact h
  · intro C conf rnd sm hok
    by_cases hsz : conf.size = 0
    · unfold create at hok
      rw [if_pos hsz] at hok
      exact absurd hok (by simp)
    · rw [create_eq C conf rnd hsz] at hok
      injection hok with hok
      subst hok
      rfl
  · intro conf hevents hbodies htally
    unfold TallyInv tallyOf at htally
    unfold calculate_metadata_size
    rw [hevents] at htally ⊢
    simp only [List.foldl_nil, List.map_nil, List.sum_nil] at htally ⊢
    obtain ⟨h1, h2⟩ := foldl_lockStep_aligned conf.lock_data MetaDataHeaderSize
      (by decide) (fun l hl => by simpa [ADDR_ALIGN] using hbodies l hl)
    rw [h1, align_value_of_aligned _ (by rw [← h1]; exact h2)]
    omega

/-- C7 (witness): the tally invariant is preserved by a concrete
`add_lock` on the default builder grown to 256 bytes. -/
theorem meta_size_tally_witness :
    TallyInv (getOk (add_lock_impl testCatalog (set_size SharedMemConf.default 256) 0 0 128)) :=
  meta_size_tally.2.1 testCatalog (set_size SharedMemConf.default 256) 0 0 128
    (getOk (add_lock_impl testCatalog (set_size SharedMemConf.default 256) 0 0 128))
    (by decide) (by decide)

/-- A successful lock walk only re-validated known lock kinds, and never
touched the builder fields outside `lock_data`, the range tree and the
tally. -/
theorem openLocks_ok_facts {C : Catalog} {user_ptr : Nat} :
    ∀ (hdrs : List LockHeaderV) (cur : Nat) (c : SharedMemConf) (cur' : Nat)
      (c' : SharedMemConf),
      openLocks C user_ptr hdrs cur c = .ok (cur', c') →
      c'.owner = c.owner ∧ c'.size = c.size ∧ c'.event_data = c.event_data ∧
      c'.link_path = c.link_path ∧ (∀ h ∈ hdrs, C.lockKnown h.uid = true) := by
  intro hdrs
  induction hdrs with
  | nil =>
      intro cur c cur' c' h
      simp only [openLocks] at h
      injection h with h
      rw [Prod.mk.injEq] at h
      obtain ⟨-, h2⟩ := h
      subst h2
      simp
  | cons hd rest ih =>
      intro cur c cur' c' h
      simp only [openLocks] at h
      split at h
      · exact absurd h (by simp)
      · split at h
        · exact absurd h (by simp)
        · rename_i hknown
          split at h
          · exact absurd h (by simp)
          · rename_i c2 heq
            split at h
            · exact absurd h (by simp)
            · obtain ⟨ho, hs, he, hlp, hall⟩ := ih _ _ _ _ h
              obtain ⟨ho2, hs2, he2, hlp2, -, -, -, -⟩ := add_lock_impl_ok_fields heq
              refine ⟨by rw [ho, ho2], by rw [hs, hs2], by rw [he, he2],
                by rw [hlp, hlp2], ?_⟩
              intro x hx
              rcases List.mem_cons.mp hx with hx | hx
              · subst hx
                cases hval : C.lockKnown x.uid
                · exact absurd hval hknown
                · rfl
              · exact hall x hx

/-- A successful event walk only re-attached known event kinds, and
preserved the lock data and the other builder fields. -/
theorem openEvents_ok_facts {C : Catalog} {user_ptr : Nat} :
    ∀ (hdrs : List EventHeaderV) (cur : Nat) (c : SharedMemConf) (cur' : Nat)
      (c' : SharedMemConf),
      openEvents C user_ptr hdrs cur c = .ok (cur', c') →
      c'.owner = c.owner ∧ c'.size = c.size ∧ c'.lock_data = c.lock_data ∧
      c'.link_path = c.link_path ∧ (∀ h ∈ hdrs, C.eventKnown h.uid = true) := by
  intro hdrs
  induction hdrs with
  | nil =>
      intro cur c cur' c' h
      simp only [openEvents] at h
      injection h with h
      rw [Prod.mk.injEq] at h
      obtain ⟨-, h2⟩ := h
      subst h2
      simp
  | cons hd rest ih =>
      intro cur c cur' c' h
      simp only [openEvents] at h
      split at h
      · exact absurd h (by simp)
      · split at h
        · exact absurd h (by simp)
        · rename_i hknown
          split at h
          · exact absurd h (by simp)
          · rename_i c2 heq
            unfold add_event_impl at heq
            injection heq with heq
            have hnext : ∀ cur₀,
                openEvents C user_ptr rest cur₀ c2 = .ok (cur', c') →
                c'.owner = c.owner ∧ c'.size = c.size ∧ c'.lock_data = c.lock_data ∧
                c'.link_path = c.link_path ∧ (∀ h ∈ hd :: rest, C.eventKnown h.uid = true) := by
              intro cur₀ hrec
              obtain ⟨ho, hs, hl, hlp, hall⟩ := ih _ _ _ _ hrec
              refine ⟨by rw [ho, ← heq], by rw [hs, ← heq], by rw [hl, ← heq],
                by rw [hlp, ← heq], ?_⟩
              intro x hx
              rcases List.mem_cons.mp hx with hx | hx
              · subst hx
                cases hval : C.eventKnown x.uid
                · exact absurd hval hknown
                · rfl
              · exact hall x hx
            split at h
            · exact hnext _ h
            · split at h
              · exact absurd h (by simp)
              · exact hnext _ h

/-- Every error of the lock walk is `InvalidHeader` or one of the two
range errors from re-validation. -/
theorem openLocks_error_shape {C : Catalog} {user_ptr : Nat} :
    ∀ (hdrs : List LockHeaderV) (cur : Nat) (c : SharedMemConf) (e : SharedMemError),
      openLocks C user_ptr hdrs cur c = .error e →
      e = .InvalidHeader ∨ (∃ l s, e = .RangeDoesNotFit l s) ∨
        (∃ o l i, e = .RangeOverlapsExisting o l i) := by
  intro hdrs
  induction hdrs with
  | nil =>
      intro cur c e h
      exact absurd h (by simp [openLocks])
  | cons hd rest ih =>
      intro cur c e h
      simp only [openLocks] at h
      split at h
      · left
        injection h with h
        exact h.symm
      · split at h
        · left
          injection h with h
          exact h.symm
        · split at h
          · rename_i e2 heq
            injection h with h
            subst h
            rcases add_lock_impl_error_shape heq with h1 | ⟨i, h2⟩
            · exact Or.inr (Or.inl ⟨_, _, h1⟩)
            · exact Or.inr (Or.inr ⟨_, _, i, h2⟩)
          · split at h
            · left
              injection h with h
              exact h.symm
            · exact ih _ _ _ h

/-- Every error of the event walk is `InvalidHeader`: `add_event_impl`
cannot fail. -/
theorem openEvents_error_shape {C : Catalog} {user_ptr : Nat} :
    ∀ (hdrs : List EventHeaderV) (cur : Nat) (c : SharedMemConf) (e : SharedMemError),
      openEvents C user_ptr hdrs cur c = .error e → e = .InvalidHeader := by
  intro hdrs
  induction hdrs with
  | nil =>
      intro cur c e h
      exact absurd h (by simp [openEvents])
  | cons hd rest ih =>
      intro cur c e h
      simp only [openEvents] at h
      split at h
      · injection h with h
        exact h.symm
      · split at h
        · injection h with h
          exact h.symm
        · split at h
          · rename_i e2 heq
            exact absurd heq (by simp [add_event_impl])
          · split at h
            · exact ih _ _ _ h
            · split at h
              · injection h with h
                exact h.symm
              · exact ih _ _ _ h

/-- C8 (counterexample): `create` on a builder with `size = 1` and no
`link_path` succeeds but leaves the owner flag false — the source sets
`owner = true` only inside the link-file branch, so the claim's
"regardless of whether a link_path was set" fails. -/
theorem create_owner_cex :
    (create testCatalog { SharedMemConf.default with size := 1 } 0).map
        (fun sm => sm.conf.owner) = .ok false := by
  decide

/-- C8 (amended): after a successful `create` the owner flag is true
exactly when a `link_path` was set (the flag is set only in the link-file
branch); `open` leaves the flag untouched, so any builder whose flag is
false — as every builder reachable from `default` is — stays non-owner. -/
theorem owner_flag :
    (∀ (C : Catalog) (conf : SharedMemConf) (rnd : Nat),
      conf.owner = false → conf.size ≠ 0 →
      (create C conf rnd).map (fun sm => sm.conf.owner) = .ok conf.link_path.isSome) ∧
    (∀ (C : Catalog) (conf0 : SharedMemConf) (m : Mapping) (conf' : SharedMemConf),
      conf0.owner = false → openMapping C conf0 m = .ok conf' → conf'.owner = false) := by
  constructor
  · intro C conf rnd howner hsz
    rw [create_eq C conf rnd hsz]
    by_cases hl : conf.link_path.isSome <;> simp [Except.map, hl, howner]
  · intro C conf0 m conf' howner hok
    simp only [openMapping] at hok
    split at hok
    · exact absurd hok (by simp)
    · split at hok
      · exact absurd hok (by simp)
      · split at hok
        · exact absurd hok (by simp)
        · rename_i p1 heqL
          split at hok
          · exact absurd hok (by simp)
          · rename_i p2 heqE
            split at hok
            · exact absurd hok (by simp)
            · injection hok with hok
              subst hok
              obtain ⟨hoE, -, -, -, -⟩ := openEvents_ok_facts _ _ _ _ _ heqE
              obtain ⟨hoL, -, -, -, -⟩ := openLocks_ok_facts _ _ _ _ _ heqL
              simpa [hoE, hoL] using howner

/-- C8 (witness): with a `link_path` set, `create` marks the owner; a
successful `open` of a minimal empty mapping yields a non-owner
configuration. -/
theorem owner_flag_witness :
    (create testCatalog (set_link_path (set_size SharedMemConf.default 1) "L") 0).map
        (fun sm => sm.conf.owner) = .ok true ∧
    (⟨false, false, none, none, 64, 32, [], [], []⟩ : SharedMemConf).owner = false := by
  constructor
  · have h := owner_flag.1 testCatalog (set_link_path (set_size SharedMemConf.default 1) "L") 0
      rfl (by decide)
    simpa using h
  · exact owner_flag.2 testCatalog SharedMemConf.default ⟨96, ⟨32, 64, 0, 0⟩, [], []⟩
      ⟨false, false, none, none, 64, 32, [], [], []⟩ rfl (by decide)

/-- Uppercase hexadecimal digit, as printed by `format!("{:X}")`. -/
def isUpperHexDigit (c : Char) : Bool :=
  (decide ('0' ≤ c) && decide (c ≤ '9')) || (decide ('A' ≤ c) && decide (c ≤ 'F'))

/-- The name shape claim C9 states: a leading `/`, the literal `shmem_`,
and exactly 16 uppercase hexadecimal digits. -/
def claimedNameShape (s : String) : Bool :=
  (s.data.take 7 == "/shmem_".data) && ((s.data.drop 7).length == 16) &&
    (s.data.drop 7).all isUpperHexDigit

/-- The shape the source actually produces: the literal `/shmem_rs_`
followed by the `{:X}` rendering of the drawn `u64` — between 1 and 16
uppercase hex digits, with no zero padding. -/
def amendedNameShape (s : String) : Bool :=
  (s.data.take 10 == "/shmem_rs_".data) && decide (1 ≤ (s.data.drop 10).length) &&
    decide ((s.data.drop 10).length ≤ 16) && (s.data.drop 10).all isUpperHexDigit

/-- C9 (counterexample): when the random source yields 0, the
synthesized name is `/shmem_rs_0` — prefix `shmem_rs_`, a single digit —
which does not match the claimed `/shmem_<16-hex-uppercase>` shape. -/
theorem synthesized_name_cex :
    (create testCatalog { SharedMemConf.default with size := 1 } 0).map
        (fun sm => sm.os_id) = .ok "/shmem_rs_0" ∧
    claimedNameShape "/shmem_rs_0" = false := by
  exact ⟨by decide, by decide⟩

theorem hexDigit_is_hex : ∀ r < 16, isUpperHexDigit (hexDigit r) = true := by decide

theorem toHexCoreAux_hex :
    ∀ (fuel n : Nat) (acc : List Char), (∀ c ∈ acc, isUpperHexDigit c = true) →
      ∀ c ∈ toHexCoreAux fuel n acc, isUpperHexDigit c = true := by
  intro fuel
  induction fuel with
  | zero =>
      intro n acc hacc c hc
      simp only [toHexCoreAux] at hc
      rcases List.mem_cons.mp hc with rfl | hc
      · exact hexDigit_is_hex _ (Nat.mod_lt _ (by norm_num))
      · exact hacc c hc
  | succ f ih =>
      intro n acc hacc c hc
      simp only [toHexCoreAux] at hc
      split at hc
      · rcases List.mem_cons.mp hc with rfl | hc
        · exact hexDigit_is_hex _ (by omega)
        · exact hacc c hc
      · refine ih (n / 16) (hexDigit (n % 16) :: acc) ?_ c hc
        intro c' hc'
        rcases List.mem_cons.mp hc' with rfl | hc'
        · exact hexDigit_is_hex _ (Nat.mod_lt _ (by norm_num))
        · exact hacc c' hc'

theorem toHexCoreAux_len_ge :
    ∀ (fuel n : Nat) (acc : List Char), acc.length + 1 ≤ (toHexCoreAux fuel n acc).length := by
  intro fuel
  induction fuel with
  | zero =>
      intro n acc
      simp [toHexCoreAux]
  | succ f ih =>
      intro n acc
      simp only [toHexCoreAux]
      split
      · simp
      · have := ih (n / 16) (hexDigit (n % 16) :: acc)
        simp only [List.length_cons] at this
        omega

theorem toHexCoreAux_len_le :
    ∀ (fuel k n : Nat) (acc : List Char), 1 ≤ k → k ≤ fuel → n < 16 ^ k →
      (toHexCoreAux fuel n acc).length ≤ k + acc.length := by
  intro fuel
  induction fuel with
  | zero =>
      intro k n acc h1 h2 _
      omega
  | succ f ih =>
      intro k n acc h1 h2 hn
      simp only [toHexCoreAux]
      split
      · simp only [List.length_cons]
        omega
      · rename_i hge
        have hk2 : 2 ≤ k := by
          by_contra hklt
          have hk1 : k = 1 := by omega
          subst hk1
          simp only [pow_one] at hn
          omega
        have hdiv : n / 16 < 16 ^ (k - 1) := by
          have hpow : 16 ^ k = 16 ^ (k - 1) * 16 := by
            rw [← pow_succ]
            congr 1
            omega
          rw [Nat.div_lt_iff_lt_mul (by norm_num)]
          omega
        have := ih (k - 1) (n / 16) (hexDigit (n % 16) :: acc) (by omega) (by omega) hdiv
        simp only [List.length_cons] at this
        omega

/-- C9 (amended): for every value of the 64-bit random source, the
synthesized name is `/shmem_rs_` followed by 1 to 16 uppercase
hexadecimal digits (the `{:X}` rendering of the value, unpadded). -/
theorem synthesized_name_shape (v : Nat) :
    amendedNameShape (synthesized_name v) = true := by
  have hdata : (synthesized_name v).data = "/shmem_rs_".data ++ toHexUpper (v % W) := rfl
  have htake : ((synthesized_name v).data.take 10) = "/shmem_rs_".data := by
    rw [hdata]
    exact List.take_left' rfl
  have hdrop : ((synthesized_name v).data.drop 10) = toHexUpper (v % W) := by
    rw [hdata]
    exact List.drop_left' rfl
  have hlt : v % W < 16 ^ 16 := by
    have : v % W < W := Nat.mod_lt _ (by norm_num [W])
    calc v % W < W := this
      _ = 16 ^ 16 := by norm_num [W]
  have hle := toHexCoreAux_len_le 64 16 (v % W) [] (by norm_num) (by norm_num) hlt
  have hge := toHexCoreAux_len_ge 64 (v % W) []
  have hhex := toHexCoreAux_hex 64 (v % W) [] (by simp)
  simp only [List.length_nil] at hle hge
  unfold amendedNameShape
  rw [htake, hdrop]
  unfold toHexUpper
  simp only [beq_self_eq_true, Bool.true_and, Bool.and_eq_true, decide_eq_true_eq,
    List.all_eq_true]
  exact ⟨⟨by omega, by omega⟩, hhex⟩

/-- The inclusive end key `offset as u64 + (length - 1) as u64` that
`add_lock_impl` inserts into the range tree. -/
def lockEnd (offset length : Nat) : Nat :=
  (offset % W + (length - 1) % W) % W

/-- The range tree a builder reaches by adding the given locks in order
starting at index `i`: one entry per non-zero-length lock. -/
def treeOf : List GenericLock → Nat → IntervalTree
  | [], _ => []
  | l :: ls, i =>
      (if l.length ≠ 0 then [(l.offset % W, lockEnd l.offset l.length, i)] else [])
        ++ treeOf ls (i + 1)

theorem treeOf_append :
    ∀ (p q : List GenericLock) (i : Nat),
      treeOf (p ++ q) i = treeOf p i ++ treeOf q (i + p.length) := by
  intro p
  induction p with
  | nil =>
      intro q i
      simp [treeOf]
  | cons l ps ih =>
      intro q i
      have h1 : treeOf ((l :: ps) ++ q) i =
          (if l.length ≠ 0 then [(l.offset % W, lockEnd l.offset l.length, i)] else [])
            ++ treeOf (ps ++ q) (i + 1) := rfl
      have h2 : treeOf (l :: ps) i =
          (if l.length ≠ 0 then [(l.offset % W, lockEnd l.offset l.length, i)] else [])
            ++ treeOf ps (i + 1) := rfl
      rw [h1, h2, ih q (i + 1), List.append_assoc]
      have h : i + 1 + ps.length = i + (l :: ps).length := by
        simp only [List.length_cons]
        omega
      rw [h]

theorem mem_treeOf :
    ∀ (ls : List GenericLock) (i : Nat) (x : Nat × Nat × Nat), x ∈ treeOf ls i →
      ∃ j, ∃ hj : j < ls.length, (ls.get ⟨j, hj⟩).length ≠ 0 ∧
        x = ((ls.get ⟨j, hj⟩).offset % W,
             lockEnd (ls.get ⟨j, hj⟩).offset (ls.get ⟨j, hj⟩).length, i + j) := by
  intro ls
  induction ls with
  | nil =>
      intro i x hx
      simp [treeOf] at hx
  | cons l ps ih =>
      intro i x hx
      simp only [treeOf] at hx
      by_cases hl : l.length ≠ 0
      · rw [if_pos hl, List.singleton_append] at hx
        rcases List.mem_cons.mp hx with rfl | hx
        · exact ⟨0, by simp, by simpa using hl, by simp⟩
        · obtain ⟨j, hj, hnz, hx⟩ := ih (i + 1) x hx
          refine ⟨j + 1, by simpa using hj, by simpa using hnz, ?_⟩
          rw [hx]
          simp only [List.get_eq_getElem, List.getElem_cons_succ]
          have h : i + 1 + j = i + (j + 1) := by omega
          rw [h]
      · rw [if_neg hl, List.nil_append] at hx
        obtain ⟨j, hj, hnz, hx⟩ := ih (i + 1) x hx
        refine ⟨j + 1, by simpa using hj, by simpa using hnz, ?_⟩
        rw [hx]
        simp only [List.get_eq_getElem, List.getElem_cons_succ]
        have h : i + 1 + j = i + (j + 1) := by omega
        rw [h]

theorem treeOf_mem_intro :
    ∀ (ls : List GenericLock) (i j : Nat) (hj : j < ls.length),
      (ls.get ⟨j, hj⟩).length ≠ 0 →
      ((ls.get ⟨j, hj⟩).offset % W,
        lockEnd (ls.get ⟨j, hj⟩).offset (ls.get ⟨j, hj⟩).length, i + j) ∈ treeOf ls i := by
  intro ls
  induction ls with
  | nil =>
      intro i j hj
      simp at hj
  | cons l ps ih =>
      intro i j hj hnz
      cases j with
      | zero =>
          simp only [List.get_eq_getElem, List.getElem_cons_zero] at hnz ⊢
          simp only [treeOf]
          rw [if_pos hnz, List.singleton_append]
          have h : i + 0 = i := by omega
          rw [h]
          exact List.mem_cons_self _ _
      | succ j' =>
          simp only [List.get_eq_getElem, List.getElem_cons_succ] at hnz ⊢
          simp only [treeOf]
          refine List.mem_append_right _ ?_
          have h : i + (j' + 1) = i + 1 + j' := by omega
          rw [h]
          exact ih (i + 1) j' (by simpa using hj) hnz

/-- The builder state of C4's counterexample: `user_size = 100` with one
lock over `[50, 99]`. -/
def overlapConf : SharedMemConf :=
  getOk (add_lock_impl testCatalog (set_size SharedMemConf.default 100) 0 50 50)

/-- C4 (counterexample): the new lock `(90, 20)` covers `[90, 109]`,
which intersects the existing lock's inclusive range `[50, 99]`, yet
`add_lock` fails with `RangeDoesNotFit(20, 100)` — the fit check runs
before the overlap query, so the claimed `RangeOverlapsExisting(90, 20, 0)`
is not produced. -/
theorem add_lock_overlap_preempted_cex :
    overlapConf.lock_data = [⟨0, 50, 50, 8⟩] ∧
    rangesIntersect 50 (50 + (50 - 1)) 90 (90 + (20 - 1)) = true ∧
    add_lock_impl testCatalog overlapConf 0 90 20 = .error (.RangeDoesNotFit 20 100) := by
  exact ⟨by decide, by decide, by decide⟩

/-- C4 (amended): when the incoming lock has `length > 0`, passes the
range validator, and its inclusive range intersects some previously
added non-zero-length lock, `add_lock` fails with
`RangeOverlapsExisting(offset, length, i)` where `i` indexes an existing
overlapping non-zero-length lock (whereas a lock that also fails the fit
check gets `RangeDoesNotFit` instead, see the counterexample);
zero-length locks are never inserted into the range index and never
produce an overlap error. -/
theorem add_lock_overlap_reports_existing :
    (∀ (C : Catalog) (conf : SharedMemConf) (lock_type offset length : Nat),
      conf.lock_range_tree = treeOf conf.lock_data 0 →
      (∀ l ∈ conf.lock_data, l.offset + l.length ≤ W) →
      offset + length ≤ W →
      valid_lock_range conf.size offset length = true →
      0 < length →
      (∃ j, ∃ hj : j < conf.lock_data.length,
        (conf.lock_data.get ⟨j, hj⟩).length ≠ 0 ∧
        rangesIntersect (conf.lock_data.get ⟨j, hj⟩).offset
          ((conf.lock_data.get ⟨j, hj⟩).offset + ((conf.lock_data.get ⟨j, hj⟩).length - 1))
          offset (offset + (length - 1)) = true) →
      ∃ i, ∃ hi : i < conf.lock_data.length,
        add_lock_impl C conf lock_type offset length =
          .error (.RangeOverlapsExisting offset length i) ∧
        (conf.lock_data.get ⟨i, hi⟩).length ≠ 0 ∧
        rangesIntersect (conf.lock_data.get ⟨i, hi⟩).offset
          ((conf.lock_data.get ⟨i, hi⟩).offset + ((conf.lock_data.get ⟨i, hi⟩).length - 1))
          offset (offset + (length - 1)) = true) ∧
    (∀ (C : Catalog) (conf : SharedMemConf) (lock_type offset : Nat) (conf' : SharedMemConf),
      add_lock_impl C conf lock_type offset 0 = .ok conf' →
        conf'.lock_range_tree = conf.lock_range_tree) ∧
    (∀ (C : Catalog) (conf : SharedMemConf) (lock_type offset : Nat) (e : SharedMemError),
      add_lock_impl C conf lock_type offset 0 = .error e → e = .RangeDoesNotFit 0 conf.size) := by
  refine ⟨?_, ?_, ?_⟩
  · intro C conf lock_type offset length htree hbounds hW hvalid hpos hex
    obtain ⟨j, hj, hjnz, hjint⟩ := hex
    have hoff : offset % W = offset := Nat.mod_eq_of_lt (by omega)
    have hlen1 : (length - 1) % W = length - 1 := Nat.mod_eq_of_lt (by omega)
    have hquery : (offset % W + (length - 1) % W) % W = offset + (length - 1) := by
      rw [hoff, hlen1]
      exact Nat.mod_eq_of_lt (by omega)
    have hbj := hbounds _ (List.get_mem conf.lock_data j hj)
    have hjoff : (conf.lock_data.get ⟨j, hj⟩).offset % W =
        (conf.lock_data.get ⟨j, hj⟩).offset := Nat.mod_eq_of_lt (by omega)
    have hjend : lockEnd (conf.lock_data.get ⟨j, hj⟩).offset
        (conf.lock_data.get ⟨j, hj⟩).length =
        (conf.lock_data.get ⟨j, hj⟩).offset + ((conf.lock_data.get ⟨j, hj⟩).length - 1) := by
      unfold lockEnd
      rw [hjoff, Nat.mod_eq_of_lt (a := (conf.lock_data.get ⟨j, hj⟩).length - 1) (by omega)]
      exact Nat.mod_eq_of_lt (by omega)
    have hmem : ((conf.lock_data.get ⟨j, hj⟩).offset % W,
        lockEnd (conf.lock_data.get ⟨j, hj⟩).offset (conf.lock_data.get ⟨j, hj⟩).length,
        0 + j) ∈ conf.lock_range_tree := by
      rw [htree]
      exact treeOf_mem_intro _ 0 j hj hjnz
    have hsome : (treeQuery conf.lock_range_tree (offset % W)
        ((offset % W + (length - 1) % W) % W)).isSome := by
      unfold treeQuery
      rw [List.find?_isSome]
      refine ⟨_, hmem, ?_⟩
      show rangesIntersect ((conf.lock_data.get ⟨j, hj⟩).offset % W)
        (lockEnd (conf.lock_data.get ⟨j, hj⟩).offset (conf.lock_data.get ⟨j, hj⟩).length)
        (offset % W) ((offset % W + (length - 1) % W) % W) = true
      rw [hjoff, hjend, hquery, hoff]
      exact hjint
    obtain ⟨ent, hent⟩ := Option.isSome_iff_exists.mp hsome
    have hentF : conf.lock_range_tree.find?
        (fun x => rangesIntersect x.1 x.2.1 (offset % W)
          ((offset % W + (length - 1) % W) % W)) = some ent := hent
    have hpent : rangesIntersect ent.1 ent.2.1 (offset % W)
        ((offset % W + (length - 1) % W) % W) = true := by
      have h := List.find?_some hentF
      exact h
    have hentmem : ent ∈ conf.lock_range_tree := List.mem_of_find?_eq_some hentF
    rw [htree] at hentmem
    obtain ⟨i, hi, hinz, hentx⟩ := mem_treeOf _ 0 ent hentmem
    have hbi := hbounds _ (List.get_mem conf.lock_data i hi)
    have hioff : (conf.lock_data.get ⟨i, hi⟩).offset % W =
        (conf.lock_data.get ⟨i, hi⟩).offset := Nat.mod_eq_of_lt (by omega)
    have hiend : lockEnd (conf.lock_data.get ⟨i, hi⟩).offset
        (conf.lock_data.get ⟨i, hi⟩).length =
        (conf.lock_data.get ⟨i, hi⟩).offset + ((conf.lock_data.get ⟨i, hi⟩).length - 1) := by
      unfold lockEnd
      rw [hioff, Nat.mod_eq_of_lt (a := (conf.lock_data.get ⟨i, hi⟩).length - 1) (by omega)]
      exact Nat.mod_eq_of_lt (by omega)
    refine ⟨i, hi, ?_, hinz, ?_⟩
    · unfold add_lock_impl
      rw [hvalid, if_neg (by simp), if_pos (by omega), hent, hentx]
      simp
    · rw [hentx] at hpent
      simp only at hpent
      rw [hioff, hiend, hquery, hoff] at hpent
      exact hpent
  · intro C conf lock_type offset conf' h
    exact (add_lock_impl_ok_tree h).1 rfl
  · intro C conf lock_type offset e h
    unfold add_lock_impl at h
    split at h
    · injection h with h
      exact h.symm
    · split at h
      · rename_i h0
        exact absurd rfl h0
      · exact absurd h (by simp)

/-- The builder state of scenario S3: `user_size = 256` with one lock
over `[0, 127]`. -/
def s3Conf : SharedMemConf :=
  getOk (add_lock_impl testCatalog (set_size SharedMemConf.default 256) 0 0 128)

/-- C4 (witness): scenario S3 — `add_lock(Mutex, 64, 64)` against the
existing lock `(0, 128)` fails with `RangeOverlapsExisting(64, 64, 0)`. -/
theorem add_lock_overlap_reports_existing_witness :
    ∃ i, ∃ hi : i < s3Conf.lock_data.length,
      add_lock_impl testCatalog s3Conf 0 64 64 =
        .error (.RangeOverlapsExisting 64 64 i) ∧
      (s3Conf.lock_data.get ⟨i, hi⟩).length ≠ 0 ∧
      rangesIntersect (s3Conf.lock_data.get ⟨i, hi⟩).offset
        ((s3Conf.lock_data.get ⟨i, hi⟩).offset + ((s3Conf.lock_data.get ⟨i, hi⟩).length - 1))
        64 (64 + (64 - 1)) = true :=
  add_lock_overlap_reports_existing.1 testCatalog s3Conf 0 64 64 (by decide) (by decide)
    (by decide) (by decide) (by decide) ⟨0, by decide, by decide, by decide⟩

/-- The mapping of C5's counterexample: a well-sized header declaring
two locks; the first has a known uid but an out-of-range extent, the
second carries the unknown uid 255. -/
def badUidMapping : Mapping :=
  ⟨80, ⟨64, 16, 2, 0⟩, [⟨0, 0, 100⟩, ⟨255, 0, 0⟩], []⟩

/-- C5 (counterexample): a lock header with an unknown uid is present,
yet `open` returns `RangeDoesNotFit(100, 16)`, not `InvalidHeader` — the
re-validation of the earlier descriptor fails first and its error
surfaces unchanged. -/
theorem open_unknown_uid_cex :
    testCatalog.lockKnown (readLockHeader badUidMapping 1).uid = false ∧
    (1 : Nat) < badUidMapping.header.num_locks ∧
    openMapping testCatalog SharedMemConf.default badUidMapping =
      .error (.RangeDoesNotFit 100 16) := by
  exact ⟨by decide, by decide, by decide⟩

/-- C5 (amended): `open` yields no attached region in any of the claimed
cases, and the error is `InvalidHeader` except that a descriptor-walk
re-validation failure may surface first as a range error: (1) a mapping
smaller than the header yields `InvalidHeader`; (2) so does
`map_size < meta_size + user_size` (computed without u64 overflow);
(3) on success every walked lock and event uid decodes to a known kind
and the final cursor equals `header.meta_size`; (4) every `open` error
is `InvalidHeader`, `RangeDoesNotFit` or `RangeOverlapsExisting`. -/
theorem open_rejections :
    (∀ (C : Catalog) (conf0 : SharedMemConf) (m : Mapping),
      m.map_size < MetaDataHeaderSize → openMapping C conf0 m = .error .InvalidHeader) ∧
    (∀ (C : Catalog) (conf0 : SharedMemConf) (m : Mapping),
      MetaDataHeaderSize ≤ m.map_size → m.map_size < W →
      m.header.meta_size + m.header.user_size < W →
      m.map_size < m.header.meta_size + m.header.user_size →
      openMapping C conf0 m = .error .InvalidHeader) ∧
    (∀ (C : Catalog) (conf0 : SharedMemConf) (m : Mapping) (conf' : SharedMemConf),
      openMapping C conf0 m = .ok conf' →
      (∀ i < m.header.num_locks, C.lockKnown (readLockHeader m i).uid = true) ∧
      (∀ i < m.header.num_events, C.eventKnown (readEventHeader m i).uid = true) ∧
      conf'.meta_size = m.header.meta_size) ∧
    (∀ (C : Catalog) (conf0 : SharedMemConf) (m : Mapping) (e : SharedMemError),
      openMapping C conf0 m = .error e →
      e = .InvalidHeader ∨ (∃ l s, e = .RangeDoesNotFit l s) ∨
        (∃ o l i, e = .RangeOverlapsExisting o l i)) := by
  refine ⟨?_, ?_, ?_, ?_⟩
  · intro C conf0 m h
    simp only [openMapping]
    rw [if_pos (by omega)]
  · intro C conf0 m h1 h2 h3 h4
    simp only [openMapping]
    rw [if_neg (by omega), if_pos (by rw [Nat.mod_eq_of_lt h2, Nat.mod_eq_of_lt h3]; exact h4)]
  · intro C conf0 m conf' hok
    simp only [openMapping] at hok
    split at hok
    · exact absurd hok (by simp)
    · split at hok
      · exact absurd hok (by simp)
      · split at hok
        · exact absurd hok (by simp)
        · rename_i p1 heqL
          split at hok
          · exact absurd hok (by simp)
          · rename_i p2 heqE
            split at hok
            · exact absurd hok (by simp)
            · rename_i hfin
              injection hok with hok
              subst hok
              obtain ⟨-, -, -, -, hallL⟩ := openLocks_ok_facts _ _ _ _ _ heqL
              obtain ⟨-, -, -, -, hallE⟩ := openEvents_ok_facts _ _ _ _ _ heqE
              push_neg at hfin
              refine ⟨?_, ?_, hfin.1⟩
              · intro i hi
                exact hallL _ (List.mem_map_of_mem _ (List.mem_range.mpr hi))
              · intro i hi
                exact hallE _ (List.mem_map_of_mem _ (List.mem_range.mpr hi))
  · intro C conf0 m e herr
    simp only [openMapping] at herr
    split at herr
    · left
      injection herr with herr
      exact herr.symm
    · split at herr
      · left
        injection herr with herr
        exact herr.symm
      · split at herr
        · rename_i e2 heqL
          injection herr with herr
          subst herr
          exact openLocks_error_shape _ _ _ _ heqL
        · split at herr
          · rename_i e2 heqE
            injection herr with herr
            subst herr
            left
            exact openEvents_error_shape _ _ _ _ heqE
          · split at herr
            · left
              injection herr with herr
              exact herr.symm
            · exact absurd herr (by simp)

/-- C5 (witness): scenario S7 — a 16-byte mapping is smaller than the
32-byte header and `open` rejects it with `InvalidHeader`. -/
theorem open_rejections_witness :
    openMapping testCatalog SharedMemConf.default ⟨16, ⟨0, 0, 0, 0⟩, [], []⟩ =
      .error .InvalidHeader :=
  open_rejections.1 testCatalog SharedMemConf.default ⟨16, ⟨0, 0, 0, 0⟩, [], []⟩ (by decide)

/-- Lock `b`'s tree key does not intersect lock `a`'s tree key unless
one of them protects no bytes. -/
def disjointFrom (a b : GenericLock) : Bool :=
  (a.length == 0) || (b.length == 0) ||
    !(rangesIntersect (a.offset % W) (lockEnd a.offset a.length)
        (b.offset % W) (lockEnd b.offset b.length))

/-- All pairs of locks in the list (in order) are `disjointFrom` each
other: the well-formedness the range tree enforces during building. -/
def pairwiseDisjoint : List GenericLock → Bool
  | [] => true
  | l :: ls => ls.all (disjointFrom l) && pairwiseDisjoint ls

theorem pairwiseDisjoint_extract :
    ∀ (p : List GenericLock) (y : GenericLock) (q : List GenericLock),
      pairwiseDisjoint (p ++ y :: q) = true → ∀ x ∈ p, disjointFrom x y = true := by
  intro p
  induction p with
  | nil =>
      intro y q _ x hx
      simp at hx
  | cons a ps ih =>
      intro y q hpd x hx
      have hpd' : (ps ++ y :: q).all (disjointFrom a) = true ∧
          pairwiseDisjoint (ps ++ y :: q) = true := by
        have h : pairwiseDisjoint ((a :: ps) ++ y :: q) =
            ((ps ++ y :: q).all (disjointFrom a) && pairwiseDisjoint (ps ++ y :: q)) := rfl
        rw [h] at hpd
        exact Bool.and_eq_true_iff.mp hpd
      rcases List.mem_cons.mp hx with rfl | hx
      · exact List.all_eq_true.mp hpd'.1 y
          (List.mem_append_right _ (List.mem_cons_self _ _))
      · exact ih y q hpd'.2 x hx

theorem range_map_getD {α : Type} (xs : List α) (d : α) :
    (List.range xs.length).map (fun i => xs.getD i d) = xs := by
  induction xs with
  | nil => simp
  | cons x xs ih =>
      rw [List.length_cons, List.range_succ_eq_map, List.map_cons, List.map_map]
      have h1 : ((fun i => (x :: xs).getD i d) ∘ (· + 1)) = (fun i => xs.getD i d) := by
        funext i
        rfl
      rw [h1, ih]
      rfl

/-- One successful iteration of the opener's lock walk. -/
theorem openLocks_cons_ok (C : Catalog) (user_ptr : Nat) (hd : LockHeaderV)
    (rest : List LockHeaderV) (cur : Nat) (c c2 : SharedMemConf)
    (h1 : ¬ user_ptr < align_value (cur + LockHeaderSize))
    (h2 : C.lockKnown hd.uid = true)
    (h3 : add_lock_impl C c hd.uid hd.offset hd.length = .ok c2)
    (h4 : ¬ user_ptr < align_value (cur + LockHeaderSize) + C.lockSize hd.uid) :
    openLocks C user_ptr (hd :: rest) cur c =
      openLocks C user_ptr rest (align_value (cur + LockHeaderSize) + C.lockSize hd.uid) c2 := by
  simp only [openLocks, h3]
  rw [if_neg h1, if_neg (by simp [h2]), if_neg h4]

/-- The opener's lock walk re-adds a well-formed serialized lock list
exactly, ending at the calculator's cursor value. -/
theorem openLocks_roundtrip (C : Catalog) (S T : Nat) (full : List GenericLock)
    (hWFl : ∀ l ∈ full, C.lockKnown l.uid = true ∧ l.bodySize = C.lockSize l.uid ∧
      l.offset < W ∧ l.length < W ∧ valid_lock_range S l.offset l.length = true)
    (hdisj : pairwiseDisjoint full = true)
    (hT : full.foldl lockStep MetaDataHeaderSize ≤ T) :
    ∀ (ls pre : List GenericLock) (c : SharedMemConf),
      full = pre ++ ls → c.size = S → c.lock_data = pre →
      c.lock_range_tree = treeOf pre 0 →
      ∃ cur' c', openLocks C T (ls.map (fun l => ⟨l.uid, l.offset % W, l.length % W⟩))
          (pre.foldl lockStep MetaDataHeaderSize) c = .ok (cur', c') ∧
        cur' = full.foldl lockStep MetaDataHeaderSize ∧
        c'.lock_data = full ∧ c'.event_data = c.event_data ∧ c'.size = c.size ∧
        c'.owner = c.owner := by
  intro ls
  induction ls with
  | nil =>
      intro pre c hfull hsize hlocks htree
      refine ⟨pre.foldl lockStep MetaDataHeaderSize, c, rfl, ?_, ?_, rfl, rfl, rfl⟩
      · rw [hfull, List.append_nil]
      · rw [hlocks, hfull, List.append_nil]
  | cons l rest ih =>
      intro pre c hfull hsize hlocks htree
      have hlmem : l ∈ full := by
        rw [hfull]
        exact List.mem_append_right _ (List.mem_cons_self _ _)
      obtain ⟨hknown, hbody, hoffW, hlenW, hvalid⟩ := hWFl l hlmem
      have hoff : l.offset % W = l.offset := Nat.mod_eq_of_lt hoffW
      have hlen : l.length % W = l.length := Nat.mod_eq_of_lt hlenW
      have hleta : (⟨l.uid, l.offset, l.length, C.lockSize l.uid⟩ : GenericLock) = l := by
        rw [← hbody]
      have hser : (⟨l.uid, l.offset % W, l.length % W⟩ : LockHeaderV) =
          ⟨l.uid, l.offset, l.length⟩ := by
        rw [hoff, hlen]
      have hfold : full.foldl lockStep MetaDataHeaderSize =
          rest.foldl lockStep (lockStep (pre.foldl lockStep MetaDataHeaderSize) l) := by
        rw [hfull, List.foldl_append]
        rfl
      have hT2 : rest.foldl lockStep
          (lockStep (pre.foldl lockStep MetaDataHeaderSize) l) ≤ T := by
        rw [← hfold]
        exact hT
      have hb2 : lockStep (pre.foldl lockStep MetaDataHeaderSize) l ≤ T :=
        le_trans (le_foldl_lockStep rest _) hT2
      have hb2' : align_value (pre.foldl lockStep MetaDataHeaderSize + LockHeaderSize) +
          l.bodySize ≤ T := hb2
      have hfoldpre : (pre ++ [l]).foldl lockStep MetaDataHeaderSize =
          lockStep (pre.foldl lockStep MetaDataHeaderSize) l := by
        rw [List.foldl_append]
        rfl
      have hvalidc : valid_lock_range c.size l.offset l.length = true := by
        rw [hsize]
        exact hvalid
      have hstepcur : align_value (pre.foldl lockStep MetaDataHeaderSize + LockHeaderSize) +
          C.lockSize l.uid = lockStep (pre.foldl lockStep MetaDataHeaderSize) l := by
        unfold lockStep
        rw [hbody]
      -- establish the successful add_lock_impl call
      have haddok : ∃ c2, add_lock_impl C c l.uid l.offset l.length = .ok c2 := by
        by_cases hl0 : l.length = 0
        · unfold add_lock_impl
          rw [hvalidc, if_neg (by simp), if_neg (by omega)]
          exact ⟨_, rfl⟩
        · have hqnone : treeQuery c.lock_range_tree (l.offset % W)
              ((l.offset % W + (l.length - 1) % W) % W) = none := by
            rw [htree]
            unfold treeQuery
            rw [List.find?_eq_none]
            intro x hx
            obtain ⟨j, hj, hjnz, hxj⟩ := mem_treeOf _ 0 x hx
            have hdx : disjointFrom (pre.get ⟨j, hj⟩) l = true := by
              refine pairwiseDisjoint_extract pre l rest ?_ _ (List.get_mem pre j hj)
              rw [← hfull]
              exact hdisj
            have hinter : rangesIntersect ((pre.get ⟨j, hj⟩).offset % W)
                (lockEnd (pre.get ⟨j, hj⟩).offset (pre.get ⟨j, hj⟩).length)
                (l.offset % W) (lockEnd l.offset l.length) = false := by
              simp [disjointFrom, hl0] at hdx
              rcases hdx with h | h
              · exact absurd h hjnz
              · exact h
            rw [hxj]
            simp only
            rw [show (l.offset % W + (l.length - 1) % W) % W =
              lockEnd l.offset l.length from rfl, hinter]
            simp
          unfold add_lock_impl
          rw [hvalidc, if_neg (by simp), if_pos hl0, hqnone]
          exact ⟨_, rfl⟩
      obtain ⟨c2, hadd⟩ := haddok
      obtain ⟨how2, hs2, he2, -, -, -, hld2, -⟩ := add_lock_impl_ok_fields hadd
      have hlocks2 : c2.lock_data = pre ++ [l] := by
        rw [hld2, hlocks, hleta]
      have htree2 : c2.lock_range_tree = treeOf (pre ++ [l]) 0 := by
        by_cases hl0 : l.length = 0
        · rw [(add_lock_impl_ok_tree hadd).1 hl0, htree, treeOf_append]
          have h1 : treeOf [l] (0 + pre.length) = [] := by
            simp only [treeOf]
            rw [if_neg (by omega), List.nil_append]
          rw [h1, List.append_nil]
        · rw [(add_lock_impl_ok_tree hadd).2 hl0, htree, treeOf_append]
          have h1 : treeOf [l] (0 + pre.length) =
              [(l.offset % W, lockEnd l.offset l.length, 0 + pre.length)] := by
            simp only [treeOf]
            rw [if_pos hl0, List.singleton_append]
          rw [h1]
          unfold treeInsert lockEnd
          rw [hlocks]
          have h2 : 0 + pre.length = pre.length := by omega
          rw [h2]
      obtain ⟨cur', c', hrec, hcur, hld, hed, hsz, how⟩ :=
        ih (pre ++ [l]) c2
          (by rw [hfull, List.append_assoc]; rfl)
          (by rw [hs2]; exact hsize) hlocks2 htree2
      rw [hfoldpre] at hrec
      refine ⟨cur', c', ?_, hcur, hld, ?_, ?_, ?_⟩
      · simp only [List.map_cons]
        rw [hser]
        rw [openLocks_cons_ok C T ⟨l.uid, l.offset, l.length⟩ _ _ c c2
          (by omega) hknown hadd (by rw [hstepcur]; omega)]
        rw [hstepcur]
        exact hrec
      · rw [hed, he2]
      · rw [hsz, hs2]
      · rw [how, how2]

theorem add_event_impl_ok_fields {C : Catalog} {conf conf' : SharedMemConf}
    {event_type : Nat} (h : add_event_impl C conf event_type = .ok conf') :
    conf'.owner = conf.owner ∧ conf'.size = conf.size ∧
    conf'.lock_data = conf.lock_data ∧ conf'.lock_range_tree = conf.lock_range_tree ∧
    conf'.event_data = conf.event_data ++ [⟨event_type, C.eventSize event_type⟩] := by
  unfold add_event_impl at h
  injection h with h
  subst h
  exact ⟨rfl, rfl, rfl, rfl, rfl⟩

/-- One successful iteration of the opener's event walk (both the
body-less `continue` path and the regular path land on the same cursor). -/
theorem openEvents_cons_ok (C : Catalog) (user_ptr : Nat) (hd : EventHeaderV)
    (rest : List EventHeaderV) (cur : Nat) (c c2 : SharedMemConf)
    (h1 : ¬ user_ptr < align_value (cur + EventHeaderSize))
    (h2 : C.eventKnown hd.uid = true)
    (h3 : add_event_impl C c hd.uid = .ok c2)
    (h4 : ¬ user_ptr < align_value (cur + EventHeaderSize) + C.eventSize hd.uid) :
    openEvents C user_ptr (hd :: rest) cur c =
      openEvents C user_ptr rest
        (align_value (cur + EventHeaderSize) + C.eventSize hd.uid) c2 := by
  by_cases h0 : C.eventSize hd.uid = 0
  · simp only [openEvents, h3]
    rw [if_neg h1, if_neg (by simp [h2]), if_pos h0, h0, Nat.add_zero]
  · simp only [openEvents, h3]
    rw [if_neg h1, if_neg (by simp [h2]), if_neg h0, if_neg h4]

/-- The opener's event walk re-adds a well-formed serialized event list
exactly, ending at the calculator's cursor value. -/
theorem openEvents_roundtrip (C : Catalog) (B T : Nat) (full : List GenericEvent)
    (hWFe : ∀ e ∈ full, C.eventKnown e.uid = true ∧ e.bodySize = C.eventSize e.uid)
    (hT : full.foldl eventStep B ≤ T) :
    ∀ (es pre : List GenericEvent) (c : SharedMemConf),
      full = pre ++ es → c.event_data = pre →
      ∃ cur' c', openEvents C T (es.map (fun e => ⟨e.uid⟩))
          (pre.foldl eventStep B) c = .ok (cur', c') ∧
        cur' = full.foldl eventStep B ∧
        c'.event_data = full ∧ c'.lock_data = c.lock_data ∧ c'.size = c.size ∧
        c'.owner = c.owner := by
  intro es
  induction es with
  | nil =>
      intro pre c hfull hevents
      refine ⟨pre.foldl eventStep B, c, rfl, ?_, ?_, rfl, rfl, rfl⟩
      · rw [hfull, List.append_nil]
      · rw [hevents, hfull, List.append_nil]
  | cons e rest ih =>
      intro pre c hfull hevents
      have hemem : e ∈ full := by
        rw [hfull]
        exact List.mem_append_right _ (List.mem_cons_self _ _)
      obtain ⟨hknown, hbody⟩ := hWFe e hemem
      have heeta : (⟨e.uid, C.eventSize e.uid⟩ : GenericEvent) = e := by
        rw [← hbody]
      have hfold : full.foldl eventStep B =
          rest.foldl eventStep (eventStep (pre.foldl eventStep B) e) := by
        rw [hfull, List.foldl_append]
        rfl
      have hT2 : rest.foldl eventStep (eventStep (pre.foldl eventStep B) e) ≤ T := by
        rw [← hfold]
        exact hT
      have hb2 : eventStep (pre.foldl eventStep B) e ≤ T :=
        le_trans (le_foldl_eventStep rest _) hT2
      have hb2' : align_value (pre.foldl eventStep B + EventHeaderSize) + e.bodySize ≤ T := hb2
      have hfoldpre : (pre ++ [e]).foldl eventStep B =
          eventStep (pre.foldl eventStep B) e := by
        rw [List.foldl_append]
        rfl
      have hstepcur : align_value (pre.foldl eventStep B + EventHeaderSize) +
          C.eventSize e.uid = eventStep (pre.foldl eventStep B) e := by
        unfold eventStep
        rw [hbody]
      obtain ⟨c2, hadd⟩ : ∃ c2, add_event_impl C c e.uid = .ok c2 := ⟨_, rfl⟩
      obtain ⟨how2, hs2, hl2, -, hed2⟩ := add_event_impl_ok_fields hadd
      have hevents2 : c2.event_data = pre ++ [e] := by
        rw [hed2, hevents, heeta]
      obtain ⟨cur', c', hrec, hcur, hev, hld, hsz, how⟩ :=
        ih (pre ++ [e]) c2
          (by rw [hfull, List.append_assoc]; rfl) hevents2
      rw [hfoldpre] at hrec
      refine ⟨cur', c', ?_, hcur, hev, ?_, ?_, ?_⟩
      · simp only [List.map_cons]
        rw [openEvents_cons_ok C T ⟨e.uid⟩ _ _ c c2
          (by omega) hknown hadd (by rw [hstepcur]; omega)]
        rw [hstepcur]
        exact hrec
      · rw [hld, hl2]
      · rw [hsz, hs2]
      · rw [how, how2]

/-- A valid configuration in the sense of claim C1 / spec §8.1: every
lock fits and is pairwise disjoint from the others, every kind is known
to the catalog with its recorded body size, and the sizes fit in
`usize` (the builder guarantees all of this as long as `set_size` is not
used to shrink `user_size` after `add_lock`). -/
def WFConf (C : Catalog) (conf : SharedMemConf) : Prop :=
  conf.size < W ∧
  calculate_metadata_size conf + conf.size < W ∧
  (∀ l ∈ conf.lock_data, C.lockKnown l.uid = true ∧ l.bodySize = C.lockSize l.uid ∧
    l.offset < W ∧ l.length < W ∧ valid_lock_range conf.size l.offset l.length = true) ∧
  pairwiseDisjoint conf.lock_data = true ∧
  (∀ e ∈ conf.event_data, C.eventKnown e.uid = true ∧ e.bodySize = C.eventSize e.uid)

instance decidableWFConf (C : Catalog) (conf : SharedMemConf) : Decidable (WFConf C conf) :=
  inferInstanceAs (Decidable (_ ∧ _ ∧ _ ∧ _ ∧ _))

/-- C1 (amended): for a valid configuration with `user_size > 0`,
`create` succeeds and `open` on the produced mapping succeeds and
reproduces the creating configuration's lock sequence (uid, offset,
length, in order), event sequence (uid, in order), `user_size` and
`meta_size`. -/
theorem create_open_roundtrip (C : Catalog) (conf conf0 : SharedMemConf) (rnd : Nat)
    (hwf : WFConf C conf) (hpos : 0 < conf.size) :
    ∃ sm conf', create C conf rnd = .ok sm ∧
      openMapping C conf0 sm.mapping = .ok conf' ∧
      conf'.lock_data.map (fun l => (l.uid, l.offset, l.length)) =
        sm.conf.lock_data.map (fun l => (l.uid, l.offset, l.length)) ∧
      conf'.event_data.map GenericEvent.uid = sm.conf.event_data.map GenericEvent.uid ∧
      conf'.size = sm.conf.size ∧
      conf'.meta_size = sm.conf.meta_size := by
  obtain ⟨hszW, hmsW, hWFl, hdisj, hWFe⟩ := hwf
  have hsz : ¬ conf.size = 0 := by omega
  have hT32 : MetaDataHeaderSize ≤ calculate_metadata_size conf := calculate_ge_header conf
  have hTW : calculate_metadata_size conf < W := by omega
  have hmap : (calculate_metadata_size conf + conf.size) % W =
      calculate_metadata_size conf + conf.size := Nat.mod_eq_of_lt hmsW
  have hTm : calculate_metadata_size conf % W = calculate_metadata_size conf :=
    Nat.mod_eq_of_lt hTW
  have hszm : conf.size % W = conf.size := Nat.mod_eq_of_lt (by omega)
  have hlockLower := foldl_lockStep_lower conf.lock_data MetaDataHeaderSize
  have hlockFoldLe := calculate_ge_lockFold conf
  have heventFoldLe := calculate_ge_eventFold conf
  have heventLower := foldl_eventStep_lower conf.event_data
    (conf.lock_data.foldl lockStep MetaDataHeaderSize)
  have hlockcountW : conf.lock_data.length < W := by
    simp only [LockHeaderSize] at hlockLower
    omega
  have heventcountW : conf.event_data.length < W := by
    simp only [EventHeaderSize] at heventLower
    omega
  have hlockcount : conf.lock_data.length % W = conf.lock_data.length :=
    Nat.mod_eq_of_lt hlockcountW
  have heventcount : conf.event_data.length % W = conf.event_data.length :=
    Nat.mod_eq_of_lt heventcountW
  -- the concrete mapping create produces
  have hcreate := create_eq C conf rnd hsz
  -- reset configuration seen by the opener
  obtain ⟨curL, cL, hrecL, hcurL, hldL, hedL, hszL, howL⟩ :=
    openLocks_roundtrip C conf.size (calculate_metadata_size conf) conf.lock_data
      hWFl hdisj hlockFoldLe conf.lock_data []
      ⟨conf0.owner, conf0.overwrite_existing_link, conf0.link_path, conf0.wanted_os_path,
        conf.size, conf0.meta_size, [], [], []⟩
      rfl rfl rfl rfl
  simp only [List.foldl_nil] at hrecL
  obtain ⟨curE, cE, hrecE, hcurE, hevE, hldE, hszE, howE⟩ :=
    openEvents_roundtrip C (conf.lock_data.foldl lockStep MetaDataHeaderSize)
      (calculate_metadata_size conf) conf.event_data hWFe heventFoldLe
      conf.event_data [] cL rfl (by rw [hedL])
  simp only [List.foldl_nil] at hrecE
  rw [← hcurL] at hrecE
  have hfinal : align_value curE = calculate_metadata_size conf := by
    rw [hcurE]
    rfl
  refine ⟨_, { cE with meta_size := align_value curE }, hcreate, ?_, ?_, ?_, ?_, ?_⟩
  · -- the open equation
    show openMapping C conf0
      { map_size := (calculate_metadata_size conf + conf.size) % W
        header := ⟨calculate_metadata_size conf % W, conf.size % W,
                   conf.lock_data.length % W, conf.event_data.length % W⟩
        locks := conf.lock_data.map (fun l => ⟨l.uid, l.offset % W, l.length % W⟩)
        events := conf.event_data.map (fun e => ⟨e.uid⟩) } = _
    simp only [openMapping, hmap, hTm, hszm, hlockcount, heventcount]
    rw [if_neg (by simp only [MetaDataHeaderSize] at hT32 ⊢; omega)]
    rw [if_neg (by omega)]
    have hmatL : (List.range conf.lock_data.length).map
        (readLockHeader
          { map_size := calculate_metadata_size conf + conf.size
            header := ⟨calculate_metadata_size conf, conf.size,
                       conf.lock_data.length, conf.event_data.length⟩
            locks := conf.lock_data.map (fun l => ⟨l.uid, l.offset % W, l.length % W⟩)
            events := conf.event_data.map (fun e => ⟨e.uid⟩) }) =
        conf.lock_data.map (fun l => ⟨l.uid, l.offset % W, l.length % W⟩) := by
      rw [show conf.lock_data.length = (conf.lock_data.map
        (fun l => (⟨l.uid, l.offset % W, l.length % W⟩ : LockHeaderV))).length from
        (List.length_map _ _).symm]
      exact range_map_getD _ _
    have hmatE : (List.range conf.event_data.length).map
        (readEventHeader
          { map_size := calculate_metadata_size conf + conf.size
            header := ⟨calculate_metadata_size conf, conf.size,
                       conf.lock_data.length, conf.event_data.length⟩
            locks := conf.lock_data.map (fun l => ⟨l.uid, l.offset % W, l.length % W⟩)
            events := conf.event_data.map (fun e => ⟨e.uid⟩) }) =
        conf.event_data.map (fun e => ⟨e.uid⟩) := by
      rw [show conf.event_data.length = (conf.event_data.map
        (fun e => (⟨e.uid⟩ : EventHeaderV))).length from (List.length_map _ _).symm]
      exact range_map_getD _ _
    rw [hmatL]
    simp only [hrecL]
    rw [hmatE]
    simp only [hrecE]
    rw [if_neg (by
      intro hcontra
      rcases hcontra with h | h
      · exact h hfinal
      · rw [hfinal, hTm] at h
        exact h rfl)]
  · -- lock triple sequence
    have h1 : cE.lock_data = conf.lock_data := by rw [hldE, hldL]
    have h2 : (if conf.link_path.isSome then { conf with owner := true } else conf).lock_data
        = conf.lock_data := by
      by_cases hl : conf.link_path.isSome <;> simp [hl]
    show cE.lock_data.map (fun l => (l.uid, l.offset, l.length)) =
      (if conf.link_path.isSome then { conf with owner := true } else conf).lock_data.map
        (fun l => (l.uid, l.offset, l.length))
    rw [h1, h2]
  · -- event uid sequence
    have h1 : cE.event_data = conf.event_data := hevE
    have h2 : (if conf.link_path.isSome then { conf with owner := true } else conf).event_data
        = conf.event_data := by
      by_cases hl : conf.link_path.isSome <;> simp [hl]
    show cE.event_data.map GenericEvent.uid =
      (if conf.link_path.isSome then { conf with owner := true } else conf).event_data.map
        GenericEvent.uid
    rw [h1, h2]
  · -- user size
    have h1 : cE.size = conf.size := by rw [hszE, hszL]
    have h2 : (if conf.link_path.isSome then { conf with owner := true } else conf).size
        = conf.size := by
      by_cases hl : conf.link_path.isSome <;> simp [hl]
    show cE.size =
      (if conf.link_path.isSome then { conf with owner := true } else conf).size
    rw [h1, h2]
  · -- meta size
    show align_value curE = calculate_metadata_size conf
    exact hfinal

/-- C1 (counterexample): `shrunkConf` is accepted by the builder in the
claim's sense — `user_size = 10 > 0` and its one `add_lock` succeeded —
yet `create` followed by `open` on the produced mapping yields
`RangeDoesNotFit(100, 10)` instead of a configuration: `set_size` shrank
`user_size` after the lock was added and `open` re-validates. -/
theorem roundtrip_set_size_cex :
    (add_lock_impl testCatalog (set_size SharedMemConf.default 100) 0 0 100).isOk = true ∧
    0 < shrunkConf.size ∧
    (create testCatalog shrunkConf 0).map
        (fun sm => openMapping testCatalog SharedMemConf.default sm.mapping) =
      .ok (.error (.RangeDoesNotFit 100 10)) := by
  exact ⟨by decide, by decide, by decide⟩

/-- A small valid configuration — one lock `(0, 32)`, one event —
used to witness the round-trip. -/
def roundConf : SharedMemConf :=
  ⟨false, false, none, none, 64, 65, [(0, 31, 0)], [⟨0, 0, 32, 8⟩], [⟨0, 0⟩]⟩

/-- C1 (witness): the round-trip at a concrete valid configuration. -/
theorem create_open_roundtrip_witness :
    ∃ sm conf', create testCatalog roundConf 0 = .ok sm ∧
      openMapping testCatalog SharedMemConf.default sm.mapping = .ok conf' ∧
      conf'.lock_data.map (fun l => (l.uid, l.offset, l.length)) =
        sm.conf.lock_data.map (fun l => (l.uid, l.offset, l.length)) ∧
      conf'.event_data.map GenericEvent.uid = sm.conf.event_data.map GenericEvent.uid ∧
      conf'.size = sm.conf.size ∧
      conf'.meta_size = sm.conf.meta_size :=
  create_open_roundtrip testCatalog roundConf SharedMemConf.default 0 (by decide) (by decide)
